import Mathlib

/-!
Verification development for the static-theme generator
(`src/generators/static-theme.ts`): the site-catalogue DSL parser and
formatter, the URL-specificity resolver, and the rule-table CSS generator.

The embedding follows the TypeScript source closely:
* JS strings are Lean `String`s; most character processing is done on
  `String.data` (a `List Char`).
* JS numbers are modelled as `ℚ` (all arithmetic in the source is exact
  at the inputs the claims exercise); `Math.round` is `jsRound`.
* The dynamic property bag of a theme record is an association list
  `List (String × PropVal)`; `PropVal` distinguishes the boolean stored
  for `noCommon` from the selector lists stored for every other section.
* Fallible code (`parseUrlSelectorConfig` can throw `new Error('Common
  theme is missing')`, and can also crash with a `TypeError` when a body
  line is pushed onto the boolean stored for `NO COMMON`) returns
  `Except ParseError`.
* The external collaborators `isUrlInList`, `applyFilterToColor` and
  `createTextRule` are out of scope for the core and are passed as
  function parameters.
-/

namespace StaticThemeGen

/-- Association-list lookup: first binding wins (JS object property read;
the lists we build have unique keys, like JS objects). -/
def getA {ν : Type} : List (String × ν) → String → Option ν
  | [], _ => none
  | (k, v) :: rest, q => if k = q then some v else getA rest q

/-- Association-list update: replace the binding in place if the key is
present (JS objects keep the original insertion position on overwrite),
otherwise append. -/
def setA {ν : Type} : List (String × ν) → String → ν → List (String × ν)
  | [], k, v => [(k, v)]
  | (k', v') :: rest, k, v =>
      if k' = k then (k, v) :: rest else (k', v') :: setA rest k v

/-- Value stored under a dynamic property of a theme record: `noCommon`
holds the boolean `true`, every other parsed section holds a list of
selector lines. -/
inductive PropVal : Type
  | boolV (b : Bool) : PropVal
  | listV (ls : List String) : PropVal
  deriving DecidableEq, Repr

/-- `Array.isArray` on a stored property value. -/
def PropVal.isArr : PropVal → Bool
  | .boolV _ => false
  | .listV _ => true

/-- `StaticTheme` record: the `url` pattern list plus the dynamic
property bag (`noCommon`, selector-list sections). -/
structure StaticTheme : Type where
  url : List String
  props : List (String × PropVal) := []
  deriving DecidableEq, Repr

/-- Reading a selector-list property off a record (`theme[prop]` where a
list is expected); absent properties and non-list values read as `[]`,
matching the `selectors == null || selectors.length === 0` guard and the
`Array.isArray` checks at every use site. -/
def StaticTheme.selList (t : StaticTheme) (p : String) : List String :=
  match getA t.props p with
  | some (.listV ls) => ls
  | _ => []

/-- JS truthiness of `theme.noCommon`: the parser stores the boolean
`true`; an array value would be truthy as well; absence is falsy. -/
def StaticTheme.noCommonB (t : StaticTheme) : Bool :=
  match getA t.props "noCommon" with
  | some (.boolV b) => b
  | some (.listV _) => true
  | none => false

/-- `Array.isArray(theme[prop])`. -/
def propIsArray (t : StaticTheme) (p : String) : Bool :=
  match getA t.props p with
  | some (.listV _) => true
  | _ => false

/-- How a call of `parseUrlSelectorConfig` can fail: the explicit
`new Error('Common theme is missing')`, or the `TypeError` raised by
`raw[prop].push(line)` when `raw[prop]` is not an array. -/
inductive ParseError : Type
  | malformed : ParseError
  | typeError : ParseError
  deriving DecidableEq, Repr

/-- `String.prototype.trim` on a character list. -/
def trimChars (l : List Char) : List Char :=
  ((l.dropWhile Char.isWhitespace).reverse.dropWhile Char.isWhitespace).reverse

/-- `text.split(c)` for a single-character separator. -/
def splitOnChar (sep : Char) : List Char → List (List Char)
  | [] => [[]]
  | c :: cs =>
      match splitOnChar sep cs with
      | [] => [[]]
      | l :: ls => if c = sep then [] :: l :: ls else (c :: l) :: ls

/-- State of the `/={2,}/g` splitter: finished blocks, current block
(reversed), and the number of pending `=` characters. -/
structure SplitSt : Type where
  blocks : List (List Char)
  acc : List Char
  eqs : Nat
  deriving DecidableEq, Repr

/-- One character of `text.split(/={2,}/g)`: `=` is buffered; any other
character either closes a block (if two or more `=` are pending, i.e.
the regex matched) or flushes the pending lone `=` into the block. -/
def splitStep (st : SplitSt) (c : Char) : SplitSt :=
  if c = '=' then { st with eqs := st.eqs + 1 }
  else if st.eqs ≥ 2 then
    { blocks := st.blocks ++ [st.acc.reverse], acc := [c], eqs := 0 }
  else
    { st with acc := c :: (List.replicate st.eqs '=' ++ st.acc), eqs := 0 }

/-- End of input for the `/={2,}/g` splitter. -/
def splitFinish (st : SplitSt) : List (List Char) :=
  if st.eqs ≥ 2 then st.blocks ++ [st.acc.reverse, []]
  else st.blocks ++ [(List.replicate st.eqs '=' ++ st.acc).reverse]

/-- `text.split(/={2,}/g)`: split on each maximal run of two-or-more
`=` characters. -/
def splitBlocks (cs : List Char) : List (List Char) :=
  splitFinish (cs.foldl splitStep { blocks := [], acc := [], eqs := 0 })

/-- `isPropertyName`: `Boolean(text.match(/^[A-Z ]+$/))`. -/
def isPropertyName (s : String) : Bool :=
  decide (s.data ≠ [] ∧ ∀ c ∈ s.data, ('A' ≤ c ∧ c ≤ 'Z') ∨ c = ' ')

/-- `word.toLowerCase()` (ASCII, as exercised on `[A-Z ]` lines). -/
def lowerWord (w : String) : String :=
  String.mk (w.data.map Char.toLower)

/-- `word.charAt(0).toUpperCase() + word.substr(1).toLowerCase()`. -/
def capWord (w : String) : String :=
  match w.data with
  | [] => ""
  | c :: cs => String.mk (c.toUpper :: cs.map Char.toLower)

/-- Convert a section-header line from `UPPER CASE` to `lowerCase`
(split on single spaces, lowercase the first word, capitalize the
rest, concatenate). -/
def toCamel (line : String) : String :=
  String.join (((splitOnChar ' ' line.data).map String.mk).enum.map
    (fun iw => if iw.1 = 0 then lowerWord iw.2 else capWord iw.2))

/-- The trimmed, blank-filtered lines of one block. -/
def blockLines (cs : List Char) : List String :=
  ((splitOnChar '\n' cs).map (fun l => String.mk (trimChars l))).filter
    (fun l => l ≠ "")

/-- The body of the `lines.slice(url.length).forEach(...)` loop: state is
the current property name (if any) and the property bag built so far.
Section headers (re)initialize a property (`noCommon` to the boolean
`true`, others to `[]`); any other line is pushed onto the current
property, which raises a `TypeError` when that property does not hold an
array. -/
def parseProps : List String → Option String × List (String × PropVal) →
    Except ParseError (List (String × PropVal))
  | [], (_, ps) => .ok ps
  | l :: rest, (cur, ps) =>
      if isPropertyName l then
        let p := toCamel l
        parseProps rest
          (some p, setA ps p (if p = "noCommon" then .boolV true else .listV []))
      else
        match cur with
        | none => .error .typeError
        | some p =>
            match getA ps p with
            | some (.listV ls) =>
                parseProps rest (some p, setA ps p (.listV (ls ++ [l])))
            | _ => .error .typeError

/-- Parse one block of the catalogue DSL: the lines before the first
section header form `url`, the remaining lines fill the property bag. -/
def parseBlockChars (cs : List Char) : Except ParseError StaticTheme :=
  let lines := blockLines cs
  let idx := lines.findIdx (fun l => isPropertyName l)
  match parseProps (lines.drop idx) (none, []) with
  | .ok ps => .ok { url := lines.take idx, props := ps }
  | .error e => .error e

/-- `blocks.forEach(...)` with a possible throw: map, stopping at the
first failing block. -/
def mapExcept {α β ε : Type} (f : α → Except ε β) : List α → Except ε (List β)
  | [] => .ok []
  | a :: as =>
      match f a with
      | .error e => .error e
      | .ok b =>
          match mapExcept f as with
          | .error e => .error e
          | .ok bs => .ok (b :: bs)

/-- `getCommonTheme`: `themes[0]` (reading fields of the `undefined`
obtained from an empty list is modelled by an empty record). -/
def getCommonTheme (themes : List StaticTheme) : StaticTheme :=
  themes.headD { url := [] }

/-- The record list produced by `parseUrlSelectorConfig` before the
common-theme check: normalize line endings, split into blocks, parse
each block. -/
def parseRecords (text : String) : Except ParseError (List StaticTheme) :=
  mapExcept parseBlockChars (splitBlocks (text.data.filter (fun c => c != '\r')))

/-- `parseUrlSelectorConfig`: parse all blocks, then require the record
at index 0 to have primary URL pattern `*`. -/
def parseUrlSelectorConfig (text : String) : Except ParseError (List StaticTheme) :=
  match parseRecords text with
  | .error e => .error e
  | .ok themes =>
      if (getCommonTheme themes).url.headD "" = "*" then .ok themes
      else .error .malformed

/-- The fixed, ordered property set referenced by the formatter. -/
def staticThemeProps : List String :=
  ["noCommon",
   "neutralBg", "neutralBgActive", "neutralText", "neutralTextActive", "neutralBorder",
   "redBg", "redBgActive", "redText", "redTextActive", "redBorder",
   "greenBg", "greenBgActive", "greenText", "greenTextActive", "greenBorder",
   "blueBg", "blueBgActive", "blueText", "blueTextActive", "blueBorder",
   "fadeBg", "fadeText", "transparentBg",
   "noImage", "invert"]

/-- `camelCaseToUpperCase`: insert a space before every `[A-Z]`,
uppercase everything, trim. -/
def camelCaseToUpperCase (s : String) : String :=
  String.mk (trimChars ((s.data.flatMap
    (fun c => if decide ('A' ≤ c ∧ c ≤ 'Z') then [' ', c] else [c])).map Char.toUpper))

/-- The formatter's sort key for a record:
`url[0].toLowerCase().replace(/[^0-9a-z\.]/g, '')`. -/
def sortKey (t : StaticTheme) : String :=
  String.mk (((t.url.headD "").data.map Char.toLower).filter
    (fun c => decide (('0' ≤ c ∧ c ≤ '9') ∨ ('a' ≤ c ∧ c ≤ 'z') ∨ c = '.')))

/-- Insert a record into a list already sorted by `sortKey`, before the
first record whose key is not smaller (the stable position). -/
def insertByKey (x : StaticTheme) : List StaticTheme → List StaticTheme
  | [] => [x]
  | y :: ys =>
      if compare (sortKey x) (sortKey y) ≠ Ordering.gt then x :: y :: ys
      else y :: insertByKey x ys

/-- `staticThemes.slice().sort((a, b) => keyA.localeCompare(keyB))`:
a stable sort by `sortKey` (the locale-aware comparison is modelled by
code-point comparison, which agrees on the `[0-9a-z.]` keys). -/
def sortThemes : List StaticTheme → List StaticTheme
  | [] => []
  | x :: xs => insertByKey x (sortThemes xs)

/-- The formatter's per-property emission condition:
`(prop === 'noCommon' && theme.noCommon) ||
(Array.isArray(theme[prop]) && theme[prop].length > 0)`. -/
def emitCond (t : StaticTheme) (prop : String) : Bool :=
  (prop = "noCommon" && t.noCommonB) ||
    (propIsArray t prop && (t.selList prop).length > 0)

/-- The body lines the formatter pushes under a property header
(`if (Array.isArray(theme[prop])) lines.push(...theme[prop])`). -/
def emitBody (t : StaticTheme) (prop : String) : List String :=
  if propIsArray t prop then t.selList prop else []

/-- The lines the formatter emits for one record: its `url` lines, then,
for each property of the fixed set that is `noCommon`-and-truthy or a
non-empty array, a blank line, the `UPPER CASE` header, and (for arrays)
the selector lines. -/
def recordLines (t : StaticTheme) : List String :=
  t.url ++ staticThemeProps.flatMap (fun prop =>
    if emitCond t prop then
      "" :: camelCaseToUpperCase prop :: emitBody t prop
    else [])

/-- The separator pushed between records: a blank line, 32 `=`, a blank
line. -/
def sepLines : List String :=
  ["", String.mk (List.replicate 32 '='), ""]

/-- All lines pushed for a record list (separators between records, not
after the last). -/
def formatLines : List StaticTheme → List String
  | [] => []
  | [t] => recordLines t
  | t :: rest => recordLines t ++ sepLines ++ formatLines rest

/-- `lines.join('\n')` at the character level. -/
def interData : List String → List Char
  | [] => []
  | [s] => s.data
  | s :: rest => s.data ++ '\n' :: interData rest

/-- `lines.join('\n')`. -/
def joinLines (ls : List String) : String :=
  String.mk (interData ls)

/-- `formatUrlSelectorConfig`: sort the records by key, emit each
record's lines with separators, append a trailing blank line, join. -/
def formatUrlSelectorConfig (staticThemes : List StaticTheme) : String :=
  joinLines (formatLines (sortThemes staticThemes) ++ [""])

/-- The specificity score `getThemeFor` assigns a record:
`isUrlInList(url, theme.url) ? theme.url[0].length : 0`. -/
def candidateSpec (inList : String → List String → Bool) (url : String)
    (t : StaticTheme) : Nat :=
  if inList url t.url then (t.url.headD "").length else 0

/-- Insert a scored record into a list sorted by descending specificity,
after every record of strictly greater specificity (the stable position
for the comparator `(a, b) => b.specificity - a.specificity`). -/
def insertScored (x : Nat × StaticTheme) :
    List (Nat × StaticTheme) → List (Nat × StaticTheme)
  | [] => [x]
  | y :: ys => if y.1 > x.1 then y :: insertScored x ys else x :: y :: ys

/-- `.sort((a, b) => b.specificity - a.specificity)`: stable sort by
descending specificity. -/
def sortScored : List (Nat × StaticTheme) → List (Nat × StaticTheme)
  | [] => []
  | x :: xs => insertScored x (sortScored xs)

/-- `getThemeFor`: score every record except index 0, keep positive
specificity, stably sort by descending specificity, return the head
(or `none`). -/
def getThemeFor (inList : String → List String → Bool) (url : String)
    (themes : List StaticTheme) : Option StaticTheme :=
  let sortedBySpecificity :=
    sortScored (((themes.drop 1).map
      (fun theme => (candidateSpec inList url theme, theme))).filter
      (fun p => p.1 > 0))
  sortedBySpecificity.head?.map Prod.snd

/-- The base palettes and the derived palette are association lists from
role names to numeric colors (3 or 4 components), mirroring the
`ThemeColors` interface and `Object.entries` iteration. -/
def ThemeColors : Type := List (String × List ℚ)

/-- Reading one role's color off a palette. -/
def colorOf (tc : ThemeColors) (p : String) : List ℚ :=
  (getA tc p).getD []

/-- Kernel-computable addition on `ℚ` (the library's `Rat.add` is
irreducible); `qadd_eq` identifies it with `+`. -/
def qadd (a b : ℚ) : ℚ :=
  mkRat (a.num * b.den + b.num * a.den) (a.den * b.den)

/-- Kernel-computable multiplication on `ℚ`; `qmul_eq` identifies it
with `*`. -/
def qmul (a b : ℚ) : ℚ :=
  mkRat (a.num * b.num) (a.den * b.den)

/-- Kernel-computable subtraction on `ℚ`; `qsub_eq` identifies it
with `-`. -/
def qsub (a b : ℚ) : ℚ :=
  mkRat (a.num * b.den - b.num * a.den) (a.den * b.den)

/-- The built-in dark base palette (entries in declared order). -/
def darkTheme : ThemeColors :=
  [("neutralBg", [16, 20, 23]),
   ("neutralText", [167, 158, 139]),
   ("redBg", [64, 12, 32]),
   ("redText", [247, 142, 102]),
   ("greenBg", [32, 64, 48]),
   ("greenText", [128, 204, 148]),
   ("blueBg", [32, 48, 64]),
   ("blueText", [128, 182, 204]),
   ("fadeBg", [16, 20, 23, mkRat 1 2]),
   ("fadeText", [167, 158, 139, mkRat 1 2])]

/-- The built-in light base palette (entries in declared order). -/
def lightTheme : ThemeColors :=
  [("neutralBg", [255, 242, 228]),
   ("neutralText", [0, 0, 0]),
   ("redBg", [255, 85, 170]),
   ("redText", [140, 14, 48]),
   ("greenBg", [192, 255, 170]),
   ("greenText", [0, 128, 0]),
   ("blueBg", [173, 215, 229]),
   ("blueText", [28, 16, 171]),
   ("fadeBg", [0, 0, 0, mkRat 1 2]),
   ("fadeText", [0, 0, 0, mkRat 1 2])]

/-- The slice of `FilterConfig` the generator reads: the dark-mode flag,
the font toggles, and (opaquely, via the external `applyFilterToColor`
and `createTextRule`) everything else. -/
structure FilterConfig : Type where
  mode : Nat
  useFont : Bool
  textStroke : ℚ
  deriving DecidableEq, Repr

/-- `Math.round` (for the non-negative values arising here:
half-up rounding); `jsRound_eq` states it as the floor of `q + 1/2`. -/
def jsRound (q : ℚ) : ℤ :=
  (qadd q (mkRat 1 2)).floor

/-- `mix(color1, color2, t)`: channel-wise
`Math.round(c * (1 - t) + color2[i] * t)`. -/
def mix (color1 color2 : List ℚ) (t : ℚ) : List ℚ :=
  color1.enum.map (fun ic =>
    ((jsRound (qadd (qmul ic.2 (qsub 1 t)) (qmul (color2.getD ic.1 0) t)) : ℤ) : ℚ))

/-- Decimal rendering of a natural number. -/
def natStr (n : ℕ) : String :=
  toString n

/-- JS rendering of the numbers appearing in colors: integers in
decimal; terminating decimals (such as the 0.5 alpha) with the shortest
fraction part; other rationals (never produced by the source) fall back
to a fraction notation. -/
def numStr (q : ℚ) : String :=
  let sign := if q < 0 then "-" else ""
  let n := q.num.natAbs
  let d := q.den
  if d = 1 then sign ++ natStr n
  else
    match (List.range 13).findSome?
      (fun k => if k ≠ 0 ∧ d ∣ 10 ^ k then some k else none) with
    | some k =>
        let scaled := n * 10 ^ k / d
        sign ++ natStr (scaled / 10 ^ k) ++ "." ++
          (let frac := natStr (scaled % 10 ^ k)
           String.mk (List.replicate (k - frac.length) '0') ++ frac)
    | none => sign ++ natStr n ++ "/" ++ natStr d

/-- `rgb([r, g, b, a])`: `rgba(...)` when a fourth component is present,
`rgb(...)` otherwise. -/
def rgb (color : List ℚ) : String :=
  match color.get? 3 with
  | some a =>
      "rgba(" ++ numStr (color.getD 0 0) ++ ", " ++ numStr (color.getD 1 0) ++
        ", " ++ numStr (color.getD 2 0) ++ ", " ++ numStr a ++ ")"
  | none =>
      "rgb(" ++ numStr (color.getD 0 0) ++ ", " ++ numStr (color.getD 1 0) ++
        ", " ++ numStr (color.getD 2 0) ++ ")"

/-- The selector lines of a rule: every selector but the last is
suffixed with a comma, the last opens the brace. -/
def selRuleLines : List String → List String
  | [] => []
  | [s] => [s ++ " \x7b"]
  | s :: rest => (s ++ ",") :: selRuleLines rest

/-- The full text of one generated rule (selector lines, indented
`!important` declarations, closing brace). -/
def renderRule (selectors decls : List String) : String :=
  joinLines (selRuleLines selectors ++
    decls.map (fun d => "    " ++ d ++ " !important;") ++ ["\x7d"])

/-- `createRuleGen(getSelectors, generateDeclarations, modifySelector)`:
produce `none` when the record's selector list is absent or empty,
otherwise the rendered rule over the rewritten selectors. -/
def createRuleGen (getSelectors : StaticTheme → List String)
    (generateDeclarations : ThemeColors → List String)
    (modifySelector : String → String := id) :
    StaticTheme → ThemeColors → Option String :=
  fun siteTheme themeColors =>
    if getSelectors siteTheme = [] then none
    else some (renderRule ((getSelectors siteTheme).map modifySelector)
      (generateDeclarations themeColors))

/-- The mixing amounts `mx` (`bg.hover`, `bg.active`, `fg.hover`,
`fg.active`, `border`). -/
structure MixLevels : Type where
  bgHover : ℚ
  bgActive : ℚ
  fgHover : ℚ
  fgActive : ℚ
  border : ℚ
  deriving DecidableEq, Repr

/-- The source's `mx` constant: `bg.hover = 0.075`, `bg.active = 0.1`,
`fg.hover = 0.25`, `fg.active = 0.5`, `border = 0.5` (written as
explicit fractions so that they compute). -/
def mx : MixLevels :=
  { bgHover := mkRat 75 1000, bgActive := mkRat 1 10, fgHover := mkRat 25 100,
    fgActive := mkRat 5 10, border := mkRat 5 10 }

/-- `${s}:hover`. -/
def hoverMod (s : String) : String :=
  s ++ ":hover"

/-- `${s}:active, ${s}:focus`. -/
def activeMod (s : String) : String :=
  s ++ ":active, " ++ s ++ ":focus"

/-- One 9-entry group of the rule table (base bg, active-selector base
bg, bg hover, bg active, base text, active-selector base text, text
hover, text active, border), as laid out per color in the source. -/
def colorGroup (bgProp bgActiveProp textProp textActiveProp borderProp : String)
    (bgAccent textAccent : List ℚ) :
    List (StaticTheme → ThemeColors → Option String) :=
  [createRuleGen (fun t => t.selList bgProp)
     (fun t => ["background-color: " ++ rgb (colorOf t bgProp)]),
   createRuleGen (fun t => t.selList bgActiveProp)
     (fun t => ["background-color: " ++ rgb (colorOf t bgProp)]),
   createRuleGen (fun t => t.selList bgActiveProp)
     (fun t => ["background-color: " ++ rgb (mix (colorOf t bgProp) bgAccent mx.bgHover)])
     hoverMod,
   createRuleGen (fun t => t.selList bgActiveProp)
     (fun t => ["background-color: " ++ rgb (mix (colorOf t bgProp) bgAccent mx.bgActive)])
     activeMod,
   createRuleGen (fun t => t.selList textProp)
     (fun t => ["color: " ++ rgb (colorOf t textProp)]),
   createRuleGen (fun t => t.selList textActiveProp)
     (fun t => ["color: " ++ rgb (colorOf t textProp)]),
   createRuleGen (fun t => t.selList textActiveProp)
     (fun t => ["color: " ++ rgb (mix (colorOf t textProp) textAccent mx.fgHover)])
     hoverMod,
   createRuleGen (fun t => t.selList textActiveProp)
     (fun t => ["color: " ++ rgb (mix (colorOf t textProp) textAccent mx.fgActive)])
     activeMod,
   createRuleGen (fun t => t.selList borderProp)
     (fun t => ["border-color: " ++ rgb (mix (colorOf t bgProp) (colorOf t textProp) mx.border)])]

/-- The fixed rule table (`ruleGenerators`). -/
def ruleGenerators : List (StaticTheme → ThemeColors → Option String) :=
  colorGroup "neutralBg" "neutralBgActive" "neutralText" "neutralTextActive"
    "neutralBorder" [255, 255, 255] [255, 255, 255] ++
  colorGroup "redBg" "redBgActive" "redText" "redTextActive" "redBorder"
    [255, 0, 64] [255, 255, 0] ++
  colorGroup "greenBg" "greenBgActive" "greenText" "greenTextActive" "greenBorder"
    [128, 255, 182] [182, 255, 224] ++
  colorGroup "blueBg" "blueBgActive" "blueText" "blueTextActive" "blueBorder"
    [0, 128, 255] [182, 224, 255] ++
  [createRuleGen (fun t => t.selList "fadeBg")
     (fun t => ["background-color: " ++ rgb (colorOf t "fadeBg")]),
   createRuleGen (fun t => t.selList "fadeText")
     (fun t => ["color: " ++ rgb (colorOf t "fadeText")]),
   createRuleGen (fun t => t.selList "transparentBg")
     (fun _ => ["background-color: transparent"]),
   createRuleGen (fun t => t.selList "noImage")
     (fun _ => ["background-image: none"]),
   createRuleGen (fun t => t.selList "invert")
     (fun _ => ["filter: invert(100%) hue-rotate(180deg)"])]

/-- The derived palette: entries of the selected base palette fed
through the external `applyFilterToColor` with the mode flag forced to
0 (`Object.entries(srcTheme).reduce(...)`). -/
def derivedTheme (applyFilterToColor : List ℚ → FilterConfig → List ℚ)
    (config : FilterConfig) : ThemeColors :=
  (if config.mode = 1 then darkTheme else lightTheme).foldl
    (fun t pc => setA t pc.1 (applyFilterToColor pc.2 { config with mode := 0 }))
    []

/-- The `lines` array built by `createStaticStylesheet` (`null` entries
are the rule generators' skips, filtered before joining). -/
def staticLines (applyFilterToColor : List ℚ → FilterConfig → List ℚ)
    (createTextRule : FilterConfig → String)
    (inList : String → List String → Bool)
    (config : FilterConfig) (url : String) (staticThemes : List StaticTheme) :
    List (Option String) :=
  let theme := derivedTheme applyFilterToColor config
  let commonTheme := getCommonTheme staticThemes
  let siteTheme := getThemeFor inList url staticThemes
  (if (match siteTheme with
       | none => true
       | some t => !t.noCommonB) then
     some "/* Common theme */" :: ruleGenerators.map (fun gen => gen commonTheme theme)
   else []) ++
  (match siteTheme with
   | some t =>
       some ("/* Theme for " ++ String.intercalate " " t.url ++ " */") ::
         ruleGenerators.map (fun gen => gen t theme)
   | none => []) ++
  (if config.useFont || decide (config.textStroke > 0) then
     [some "/* Font */", some ("* " ++ createTextRule config)]
   else [])

/-- `createStaticStylesheet`: build the lines, drop the falsy ones
(`null` and the empty string), join with newlines. -/
def createStaticStylesheet (applyFilterToColor : List ℚ → FilterConfig → List ℚ)
    (createTextRule : FilterConfig → String)
    (inList : String → List String → Bool)
    (config : FilterConfig) (url : String) (staticThemes : List StaticTheme) :
    String :=
  joinLines
    (((staticLines applyFilterToColor createTextRule inList config url
        staticThemes).filterMap id).filter (fun ln => ln ≠ ""))

/-- The first element of maximal specificity of a scored list: what a
stable descending sort puts at the head. -/
def firstMaxScored : List (Nat × StaticTheme) → Option (Nat × StaticTheme)
  | [] => none
  | x :: xs =>
      match firstMaxScored xs with
      | none => some x
      | some y => if y.1 > x.1 then some y else some x

/-- The candidate records of `getThemeFor`: records at index 1 and
above whose specificity score is positive. -/
def candidatesOf (inList : String → List String → Bool) (url : String)
    (themes : List StaticTheme) : List StaticTheme :=
  (themes.drop 1).filter (fun t => candidateSpec inList url t > 0)

/-- Out-of-range default used when indexing the rule table. -/
def noGen : StaticTheme → ThemeColors → Option String :=
  fun _ _ => none

/-- The three derived-state facts for one color role: the `:hover` and
`:active, :focus` rules are generated iff the `<role>Active` selector
list is non-empty, and a non-empty `<role>Active` list also produces the
base-state rule assigning the un-mixed base role color. -/
def activeTriple (t : StaticTheme) (tc : ThemeColors)
    (iBase iHover iActive : Nat) (activeProp baseProp cssProp : String) : Prop :=
  (ruleGenerators.getD iHover noGen t tc ≠ none ↔ t.selList activeProp ≠ []) ∧
  (ruleGenerators.getD iActive noGen t tc ≠ none ↔ t.selList activeProp ≠ []) ∧
  (t.selList activeProp ≠ [] →
    ruleGenerators.getD iBase noGen t tc =
      some (renderRule (t.selList activeProp)
        [cssProp ++ ": " ++ rgb (colorOf tc baseProp)]))

/-- No two consecutive `=` characters (such a line cannot trigger the
`/={2,}/` block splitter). -/
def cleanRun (l : List Char) : Prop :=
  l.Chain' (fun a b => ¬(a = '=' ∧ b = '='))

/-- A line the parser's line normalization leaves alone: no newline or
carriage return, no `==` run. -/
def lineOk (s : String) : Prop :=
  cleanRun s.data ∧ '\n' ∉ s.data ∧ '\r' ∉ s.data

/-- A non-blank, trim-invariant line that survives the parser's line
normalization unchanged. -/
def goodLine (s : String) : Prop :=
  lineOk s ∧ trimChars s.data = s.data ∧ s ≠ ""

/-- Value-level well-formedness of a stored property: selector lists
consist of good non-header lines. -/
def bodyOk : PropVal → Prop
  | .boolV _ => True
  | .listV ls => ∀ l ∈ ls, goodLine l ∧ isPropertyName l = false

/-- A hand-built record the round-trip claim quantifies over: non-empty
`url` of good non-header lines, properties drawn from the fixed set,
`noCommon` boolean, selector lists of good non-header lines. -/
def wellFormedRecord (t : StaticTheme) : Prop :=
  t.url ≠ [] ∧
  (∀ u ∈ t.url, goodLine u ∧ isPropertyName u = false) ∧
  (∀ kv ∈ t.props, kv.1 ∈ staticThemeProps ∧
    (kv.1 = "noCommon" → kv.2.isArr = false) ∧ bodyOk kv.2)

/-- The (property, body) pairs the formatter emits for a record, in the
fixed property order. -/
def emittedOf (t : StaticTheme) : List (String × List String) :=
  staticThemeProps.filterMap (fun prop =>
    if emitCond t prop then some (prop, emitBody t prop) else none)

/-- The section lines of a record as they survive blank-line removal. -/
def sectionsOf (t : StaticTheme) : List String :=
  (emittedOf t).flatMap (fun pb => camelCaseToUpperCase pb.1 :: pb.2)

/-- The record the parser reconstructs from a formatted record. -/
def reparse (t : StaticTheme) : StaticTheme :=
  { url := t.url,
    props := (emittedOf t).foldl
      (fun ps pb => setA ps pb.1
        (if pb.1 = "noCommon" then .boolV true else .listV pb.2)) [] }

/-- The character data of one formatted record. -/
def blockData (t : StaticTheme) : List Char :=
  interData (recordLines t)

/-- The blocks the `/={2,}/` splitter recovers from a formatted record
list, given the prefix chars carried over from the previous separator. -/
def expBlocks (p : List Char) : List StaticTheme → List (List Char)
  | [] => [p]
  | [t] => [p ++ blockData t ++ ['\n']]
  | t :: rest => (p ++ blockData t ++ ['\n', '\n']) :: expBlocks ['\n', '\n'] rest

/-- Records observed the way the claims compare them: same url list,
same `noCommon` flag, the same selector list under every role (absent
and empty identified). -/
def sameRecord (a b : StaticTheme) : Prop :=
  a.url = b.url ∧ a.noCommonB = b.noCommonB ∧
    ∀ p, p ≠ "noCommon" → a.selList p = b.selList p

instance cleanRunDec : (l : List Char) → Decidable (cleanRun l)
  | [] => isTrue List.chain'_nil
  | [c] => isTrue (List.chain'_singleton c)
  | a :: b :: rest =>
      match cleanRunDec (b :: rest) with
      | isTrue h =>
          if hab : a = '=' ∧ b = '=' then
            isFalse (fun hc => (List.chain'_cons.mp hc).1 hab)
          else isTrue (List.chain'_cons.mpr ⟨hab, h⟩)
      | isFalse h => isFalse (fun hc => h (List.chain'_cons.mp hc).2)

instance (s : String) : Decidable (lineOk s) :=
  inferInstanceAs (Decidable (cleanRun s.data ∧ '\n' ∉ s.data ∧ '\r' ∉ s.data))

instance (s : String) : Decidable (goodLine s) :=
  inferInstanceAs (Decidable (lineOk s ∧ trimChars s.data = s.data ∧ s ≠ ""))

instance (v : PropVal) : Decidable (bodyOk v) :=
  match v with
  | .boolV _ => isTrue trivial
  | .listV ls =>
      inferInstanceAs (Decidable (∀ l ∈ ls, goodLine l ∧ isPropertyName l = false))

instance (t : StaticTheme) : Decidable (wellFormedRecord t) :=
  inferInstanceAs (Decidable (_ ∧ _ ∧ _))

/-! ### Bridge identities for the numeric layer -/

theorem qadd_eq (a b : ℚ) : qadd a b = a + b :=
  (Rat.add_def' a b).symm

theorem qsub_eq (a b : ℚ) : qsub a b = a - b :=
  (Rat.sub_def' a b).symm

theorem qmul_eq (a b : ℚ) : qmul a b = a * b := by
  rw [qmul, ← Rat.normalize_eq_mkRat (Nat.mul_ne_zero a.den_nz b.den_nz),
    ← Rat.mul_def]

theorem jsRound_eq (q : ℚ) : jsRound q = ⌊q + 1 / 2⌋ := by
  rw [jsRound, qadd_eq, Rat.floor_def']
  rw [show (mkRat 1 2 : ℚ) = 1 / 2 by rw [Rat.mkRat_eq_div]; norm_num]
  rw [← Rat.floor_def]

/-- The mixing formula written with the standard `ℚ` operations. -/
theorem mix_eq_formula (color1 color2 : List ℚ) (t : ℚ) :
    mix color1 color2 t =
      color1.enum.map (fun ic =>
        ((⌊ic.2 * (1 - t) + (color2.getD ic.1 0) * t + 1 / 2⌋ : ℤ) : ℚ)) := by
  simp only [mix, jsRound_eq, qadd_eq, qmul_eq, qsub_eq]

/-! ### Association-list lemmas -/

theorem getA_setA_self {ν : Type} (ps : List (String × ν)) (k : String) (v : ν) :
    getA (setA ps k v) k = some v := by
  induction ps with
  | nil => simp [getA, setA]
  | cons kv rest ih =>
      obtain ⟨k', v'⟩ := kv
      by_cases h : k' = k
      · simp [getA, setA, h]
      · simp [getA, setA, h, ih]

theorem getA_setA_ne {ν : Type} (ps : List (String × ν)) (k q : String) (v : ν)
    (h : k ≠ q) : getA (setA ps k v) q = getA ps q := by
  induction ps with
  | nil => simp [getA, setA, h]
  | cons kv rest ih =>
      obtain ⟨k', v'⟩ := kv
      by_cases h' : k' = k
      · subst h'
        simp [getA, setA, h]
      · simp only [setA, if_neg h', getA]
        by_cases h'' : k' = q <;> simp [h'', ih]

/-! ### `parseUrlSelectorConfig` can only fail with `malformed` at the
final common-record check -/

theorem parseProps_ne_malformed (ls : List String)
    (st : Option String × List (String × PropVal)) :
    parseProps ls st ≠ .error .malformed := by
  induction ls generalizing st with
  | nil =>
      obtain ⟨cur, ps⟩ := st
      simp [parseProps]
  | cons l rest ih =>
      obtain ⟨cur, ps⟩ := st
      simp only [parseProps]
      split
      · exact ih _
      · split
        · simp
        · split
          · exact ih _
          · simp

theorem parseBlockChars_ne_malformed (cs : List Char) :
    parseBlockChars cs ≠ .error .malformed := by
  simp only [parseBlockChars]
  split
  · simp
  · rename_i e heq
    intro hc
    cases hc
    exact parseProps_ne_malformed _ _ heq

theorem mapExcept_ok_mem {α β ε : Type} (f : α → Except ε β) (l : List α)
    (bs : List β) (hok : mapExcept f l = .ok bs) (a : α) (ha : a ∈ l) :
    ∃ b, f a = .ok b := by
  induction l generalizing bs with
  | nil => cases ha
  | cons x xs ih =>
      simp only [mapExcept] at hok
      rcases List.mem_cons.mp ha with rfl | hmem
      · cases hfa : f a with
        | error e => rw [hfa] at hok; cases hok
        | ok b => exact ⟨b, rfl⟩
      · cases hfx : f x with
        | error e => rw [hfx] at hok; cases hok
        | ok b =>
            rw [hfx] at hok
            cases hrest : mapExcept f xs with
            | error e => rw [hrest] at hok; cases hok
            | ok bs' => exact ih bs' hrest hmem

theorem mapExcept_error_mem {α β ε : Type} (f : α → Except ε β) (l : List α)
    (e : ε) (herr : mapExcept f l = .error e) :
    ∃ a ∈ l, f a = .error e := by
  induction l with
  | nil => simp [mapExcept] at herr
  | cons x xs ih =>
      simp only [mapExcept] at herr
      cases hfx : f x with
      | error e' =>
          rw [hfx] at herr
          cases herr
          exact ⟨x, List.mem_cons_self x xs, hfx⟩
      | ok b =>
          rw [hfx] at herr
          cases hrest : mapExcept f xs with
          | error e' =>
              rw [hrest] at herr
              cases herr
              obtain ⟨a, ha, hfa⟩ := ih hrest
              exact ⟨a, List.mem_cons_of_mem x ha, hfa⟩
          | ok bs => rw [hrest] at herr; cases herr

theorem parseRecords_ne_malformed (text : String) :
    parseRecords text ≠ .error .malformed := by
  intro h
  obtain ⟨a, _, hfa⟩ := mapExcept_error_mem _ _ _ h
  exact parseBlockChars_ne_malformed a hfa

/-- C1. `parseUrlSelectorConfig` raises the "Common theme is missing"
error exactly when the blocks all parse and the record at index 0 of
the parsed record list does not have `url[0] = "*"`; in particular,
whenever the blocks parse to records none of which has primary URL
pattern `*`, the parse raises this error rather than returning a
catalogue. -/
theorem parse_malformed_characterization (text : String) :
    (parseUrlSelectorConfig text = .error .malformed ↔
      ∃ themes, parseRecords text = .ok themes ∧
        ¬ (getCommonTheme themes).url.headD "" = "*") ∧
    (∀ themes, parseRecords text = .ok themes →
      (∀ t ∈ themes, ¬ t.url.headD "" = "*") →
      parseUrlSelectorConfig text = .error .malformed) := by
  constructor
  · constructor
    · intro h
      cases hr : parseRecords text with
      | error e =>
          simp only [parseUrlSelectorConfig, hr] at h
          cases h
          exact absurd hr (parseRecords_ne_malformed text)
      | ok themes =>
          simp only [parseUrlSelectorConfig, hr] at h
          by_cases hc : (getCommonTheme themes).url.headD "" = "*"
          · rw [if_pos hc] at h; cases h
          · exact ⟨themes, rfl, hc⟩
    · rintro ⟨themes, hr, hc⟩
      simp only [parseUrlSelectorConfig, hr, if_neg hc]
  · intro themes hr hall
    simp only [parseUrlSelectorConfig, hr]
    rw [if_neg]
    cases themes with
    | nil => simp [getCommonTheme]
    | cons t rest =>
        exact hall t (List.mem_cons_self t rest)

/-- C1 witness: a concrete text with no `*` record parses to a record
list and raises the malformed-catalogue error. -/
theorem parse_malformed_characterization_witness :
    parseUrlSelectorConfig "example.com\nNEUTRAL BG\nbody" = .error .malformed :=
  (parse_malformed_characterization "example.com\nNEUTRAL BG\nbody").2
    [{ url := ["example.com"], props := [("neutralBg", .listV ["body"])] }]
    rfl (by decide)

/-! ### C8: url lists of parsed records -/

/-- C8 counterexample: on the input `"*\n=="` the parse succeeds and the
returned catalogue's second record has an empty `url` list, so not every
record of a returned catalogue has a non-empty `url` list. -/
theorem parse_nonempty_url_counterexample :
    parseUrlSelectorConfig "*\n==" = .ok [{ url := ["*"] }, { url := [] }] ∧
    ¬ (∀ themes, parseUrlSelectorConfig "*\n==" = .ok themes →
        ∀ t ∈ themes, t.url ≠ []) := by
  constructor
  · rfl
  · intro hall
    exact hall [{ url := ["*"] }, { url := [] }] rfl { url := [] } (by decide) rfl

/-- C8 amended: in every catalogue returned by `parseUrlSelectorConfig`
the record at index 0 has primary pattern `*` and hence a non-empty
`url` list (records at later indices may have empty `url` lists, as the
counterexample shows). -/
theorem parse_ok_common_record (text : String) (themes : List StaticTheme)
    (h : parseUrlSelectorConfig text = .ok themes) :
    ∃ t rest, themes = t :: rest ∧ t.url.headD "" = "*" ∧ t.url ≠ [] := by
  cases hr : parseRecords text with
  | error e => simp only [parseUrlSelectorConfig, hr] at h; cases h
  | ok ts =>
      simp only [parseUrlSelectorConfig, hr] at h
      by_cases hc : (getCommonTheme ts).url.headD "" = "*"
      · rw [if_pos hc] at h
        cases h
        cases themes with
        | nil => simp [getCommonTheme] at hc
        | cons t rest =>
            refine ⟨t, rest, rfl, ?_, ?_⟩
            · simpa [getCommonTheme] using hc
            · intro hnil
              rw [getCommonTheme, List.headD_cons, hnil] at hc
              simp at hc
      · rw [if_neg hc] at h; cases h

/-- C8 amended, witness: the amended statement evaluated on the
counterexample input. -/
theorem parse_ok_common_record_witness :
    ∃ t rest, ([{ url := ["*"] }, { url := [] }] : List StaticTheme) = t :: rest ∧
      t.url.headD "" = "*" ∧ t.url ≠ [] :=
  parse_ok_common_record "*\n==" [{ url := ["*"] }, { url := [] }] rfl

/-! ### C9: a body line directly after `NO COMMON` crashes the parse -/

theorem parseProps_cons_prop (l : String) (rest : List String)
    (cur : Option String) (ps : List (String × PropVal))
    (h : isPropertyName l = true) :
    parseProps (l :: rest) (cur, ps) =
      parseProps rest (some (toCamel l),
        setA ps (toCamel l)
          (if toCamel l = "noCommon" then .boolV true else .listV [])) := by
  simp only [parseProps, h, if_true]

theorem parseProps_cons_body (l : String) (rest : List String)
    (cur : Option String) (ps : List (String × PropVal))
    (h : isPropertyName l = false) :
    parseProps (l :: rest) (cur, ps) =
      match cur with
      | none => .error .typeError
      | some p =>
          match getA ps p with
          | some (.listV ls) => parseProps rest (some p, setA ps p (.listV (ls ++ [l])))
          | _ => .error .typeError := by
  simp only [parseProps, h, Bool.false_eq_true, if_false]

theorem parseProps_noCommon_body (hh b : String) (post : List String)
    (hprop : isPropertyName hh = true) (hcamel : toCamel hh = "noCommon")
    (hbody : isPropertyName b = false) :
    ∀ (pre : List String) (st : Option String × List (String × PropVal)),
      parseProps (pre ++ hh :: b :: post) st = .error .typeError := by
  intro pre
  induction pre with
  | nil =>
      intro st
      obtain ⟨cur, ps⟩ := st
      rw [List.nil_append, parseProps_cons_prop _ _ _ _ hprop, hcamel, if_pos rfl,
        parseProps_cons_body _ _ _ _ hbody]
      simp [getA_setA_self]
  | cons l rest ih =>
      intro st
      obtain ⟨cur, ps⟩ := st
      by_cases hl : isPropertyName l
      · rw [List.cons_append, parseProps_cons_prop _ _ _ _ hl]
        exact ih _
      · rw [List.cons_append,
          parseProps_cons_body _ _ _ _ (Bool.not_eq_true _ ▸ hl)]
        split
        · rfl
        · split
          · exact ih _
          · rfl

theorem findIdx_le_prefix_length (P : String → Bool) (pre : List String)
    (x : String) (post : List String) (hx : P x = true) :
    (pre ++ x :: post).findIdx P ≤ pre.length := by
  induction pre with
  | nil => simp [List.findIdx_cons, hx]
  | cons l pre' ih =>
      rw [List.cons_append, List.findIdx_cons]
      by_cases hl : P l
      · simp [hl]
      · simp only [hl, cond_false, List.length_cons]
        exact Nat.succ_le_succ ih

theorem parseBlockChars_noCommon_body (cs : List Char) (pre : List String)
    (hh b : String) (post : List String)
    (hlines : blockLines cs = pre ++ hh :: b :: post)
    (hprop : isPropertyName hh = true) (hcamel : toCamel hh = "noCommon")
    (hbody : isPropertyName b = false) :
    parseBlockChars cs = .error .typeError := by
  have hle : (pre ++ hh :: b :: post).findIdx (fun l => isPropertyName l) ≤
      pre.length :=
    findIdx_le_prefix_length _ pre hh (b :: post) hprop
  simp only [parseBlockChars, hlines]
  rw [List.drop_append_eq_append_drop, Nat.sub_eq_zero_of_le hle, List.drop_zero,
    parseProps_noCommon_body hh b post hprop hcamel hbody]

/-- C9: `parseUrlSelectorConfig` is not total on well-delimited inputs:
whenever some block's (trimmed, blank-filtered) lines contain a section
header converting to `noCommon` directly followed by a non-header line,
the parse fails with the `TypeError` of pushing onto a boolean, rather
than returning a catalogue or the malformed-catalogue error. -/
theorem parse_noCommon_body_typeError (text : String)
    (h : ∃ block ∈ splitBlocks (text.data.filter (fun c => c != '\r')),
        ∃ pre hh b post, blockLines block = pre ++ hh :: b :: post ∧
          isPropertyName hh = true ∧ toCamel hh = "noCommon" ∧
          isPropertyName b = false) :
    parseUrlSelectorConfig text = .error .typeError := by
  obtain ⟨block, hmem, pre, hh, b, post, hlines, hprop, hcamel, hbody⟩ := h
  have hblock : parseBlockChars block = .error .typeError :=
    parseBlockChars_noCommon_body block pre hh b post hlines hprop hcamel hbody
  have hrec : parseRecords text = .error .typeError := by
    unfold parseRecords
    cases hr : mapExcept parseBlockChars
        (splitBlocks (text.data.filter (fun c => c != '\r'))) with
    | ok bs =>
        obtain ⟨bb, hfb⟩ := mapExcept_ok_mem _ _ _ hr block hmem
        rw [hblock] at hfb
        cases hfb
    | error e =>
        cases e with
        | typeError => rfl
        | malformed =>
            obtain ⟨a, _, hfa⟩ := mapExcept_error_mem _ _ _ hr
            exact absurd hfa (parseBlockChars_ne_malformed a)
  simp [parseUrlSelectorConfig, hrec]

/-- C9 witness: the concrete text `"*\nNO COMMON\nbody"` crashes the
parse with the `TypeError`. -/
theorem parse_noCommon_body_typeError_witness :
    parseUrlSelectorConfig "*\nNO COMMON\nbody" = .error .typeError :=
  parse_noCommon_body_typeError "*\nNO COMMON\nbody"
    ⟨"*\nNO COMMON\nbody".data, by decide,
     ["*"], "NO COMMON", "body", [], by decide, by decide, by decide, by decide⟩

/-! ### C3, C4: the specificity resolver -/

theorem head?_insertScored (x : Nat × StaticTheme) (l : List (Nat × StaticTheme)) :
    (insertScored x l).head? =
      some (match l.head? with
            | none => x
            | some y => if y.1 > x.1 then y else x) := by
  cases l with
  | nil => rfl
  | cons y ys =>
      simp only [insertScored, List.head?_cons]
      by_cases h : y.1 > x.1
      · rw [if_pos h, if_pos h, List.head?_cons]
      · rw [if_neg h, if_neg h, List.head?_cons]

theorem head?_sortScored (l : List (Nat × StaticTheme)) :
    (sortScored l).head? = firstMaxScored l := by
  induction l with
  | nil => rfl
  | cons x xs ih =>
      rw [sortScored, head?_insertScored, ih]
      simp only [firstMaxScored]
      cases firstMaxScored xs with
      | none => rfl
      | some y => by_cases hy : y.1 > x.1 <;> simp [hy]

theorem firstMaxScored_eq_none_iff (l : List (Nat × StaticTheme)) :
    firstMaxScored l = none ↔ l = [] := by
  cases l with
  | nil => simp [firstMaxScored]
  | cons x xs =>
      simp only [firstMaxScored]
      constructor
      · intro h
        split at h
        · cases h
        · split at h <;> cases h
      · intro h; cases h

theorem firstMaxScored_mem (l : List (Nat × StaticTheme))
    (p : Nat × StaticTheme) (h : firstMaxScored l = some p) : p ∈ l := by
  induction l with
  | nil => cases h
  | cons x xs ih =>
      simp only [firstMaxScored] at h
      split at h
      · cases h
        exact List.mem_cons_self _ _
      · rename_i y hf
        split at h
        · cases h
          exact List.mem_cons_of_mem _ (ih hf)
        · cases h
          exact List.mem_cons_self _ _

theorem firstMaxScored_max (l : List (Nat × StaticTheme)) :
    ∀ p, firstMaxScored l = some p → ∀ q ∈ l, q.1 ≤ p.1 := by
  induction l with
  | nil => intro p h; cases h
  | cons x xs ih =>
      intro p h q hq
      simp only [firstMaxScored] at h
      split at h
      · rename_i hf
        cases h
        rcases List.mem_cons.mp hq with rfl | hq'
        · exact Nat.le_refl _
        · rw [(firstMaxScored_eq_none_iff xs).mp hf] at hq'
          cases hq'
      · rename_i y hf
        split at h
        · rename_i hy
          cases h
          rcases List.mem_cons.mp hq with rfl | hq'
          · exact Nat.le_of_lt hy
          · exact ih _ hf q hq'
        · rename_i hy
          cases h
          rcases List.mem_cons.mp hq with rfl | hq'
          · exact Nat.le_refl _
          · exact Nat.le_trans (ih _ hf q hq') (Nat.le_of_not_lt hy)

theorem filter_map_spec (f : StaticTheme → Nat) (l : List StaticTheme) :
    ((l.map (fun t => (f t, t))).filter (fun p => p.1 > 0)) =
      (l.filter (fun t => f t > 0)).map (fun t => (f t, t)) := by
  induction l with
  | nil => rfl
  | cons x xs ih =>
      by_cases h : f x > 0 <;> simp [List.filter_cons, h, ih]

theorem getThemeFor_eq_firstMax (inList : String → List String → Bool)
    (url : String) (themes : List StaticTheme) :
    getThemeFor inList url themes =
      (firstMaxScored ((candidatesOf inList url themes).map
        (fun t => (candidateSpec inList url t, t)))).map Prod.snd := by
  rw [getThemeFor, head?_sortScored, filter_map_spec, candidatesOf]

/-- C3: `getThemeFor` considers only the records at index 1 and above;
a record is a candidate exactly when `isUrlInList` accepts it and its
primary pattern has positive length; the result is a candidate of
maximal primary-pattern length, and `none` exactly when there is no
candidate. -/
theorem getThemeFor_characterization (inList : String → List String → Bool)
    (url : String) (themes : List StaticTheme) :
    (getThemeFor inList url themes = none ↔
      candidatesOf inList url themes = []) ∧
    (∀ t, getThemeFor inList url themes = some t →
      t ∈ candidatesOf inList url themes ∧
      ∀ c ∈ candidatesOf inList url themes,
        candidateSpec inList url c ≤ candidateSpec inList url t) := by
  rw [getThemeFor_eq_firstMax]
  constructor
  · rw [Option.map_eq_none', firstMaxScored_eq_none_iff, List.map_eq_nil_iff]
  · intro t ht
    rw [Option.map_eq_some'] at ht
    obtain ⟨p, hp, rfl⟩ := ht
    have hmem := firstMaxScored_mem _ _ hp
    rw [List.mem_map] at hmem
    obtain ⟨c0, hc0, hpc⟩ := hmem
    have hp1 : p.1 = candidateSpec inList url p.2 := by
      rw [← hpc]
    constructor
    · rw [← hpc]
      exact hc0
    · intro c hc
      have := firstMaxScored_max _ _ hp (candidateSpec inList url c, c)
        (List.mem_map_of_mem _ hc)
      rw [hp1] at this
      exact this

/-- C3 witness: the characterization applied to a concrete catalogue. -/
theorem getThemeFor_characterization_witness :
    (({ url := ["aa"] } : StaticTheme) ∈
      candidatesOf (fun _ pats => decide (pats ≠ ["*"])) "u"
        [{ url := ["*"] }, { url := ["aa"] }, { url := ["bb"] }] ∧
     ∀ c ∈ candidatesOf (fun _ pats => decide (pats ≠ ["*"])) "u"
        [{ url := ["*"] }, { url := ["aa"] }, { url := ["bb"] }],
       candidateSpec (fun _ pats => decide (pats ≠ ["*"])) "u" c ≤
         candidateSpec (fun _ pats => decide (pats ≠ ["*"])) "u"
           { url := ["aa"] }) :=
  (getThemeFor_characterization (fun _ pats => decide (pats ≠ ["*"])) "u"
    [{ url := ["*"] }, { url := ["aa"] }, { url := ["bb"] }]).2
    { url := ["aa"] } (by decide)

theorem firstMaxScored_first (P S : List (Nat × StaticTheme))
    (x : Nat × StaticTheme) (hP : ∀ q ∈ P, q.1 < x.1)
    (hS : ∀ q ∈ S, q.1 ≤ x.1) :
    firstMaxScored (P ++ x :: S) = some x := by
  induction P with
  | nil =>
      rw [List.nil_append]
      cases hf : firstMaxScored S with
      | none => simp [firstMaxScored, hf]
      | some y =>
          have hy := hS y (firstMaxScored_mem S y hf)
          simp [firstMaxScored, hf, Nat.not_lt.mpr hy]
  | cons p P' ih =>
      have hrec := ih (fun q hq => hP q (List.mem_cons_of_mem _ hq))
      have hp := hP p (List.mem_cons_self _ _)
      simp [firstMaxScored, hrec, hp]

/-- C4: when two records are both candidates, tied at the maximum
specificity among the candidates (every candidate outside the pair
scoring strictly lower), `getThemeFor` returns the one appearing
earlier in catalogue order, whatever other candidates surround them. -/
theorem getThemeFor_tie_first (inList : String → List String → Bool)
    (url : String) (themes : List StaticTheme) (a b : StaticTheme)
    (P M S : List StaticTheme)
    (hc : candidatesOf inList url themes = P ++ a :: (M ++ b :: S))
    (heq : candidateSpec inList url a = candidateSpec inList url b)
    (hP : ∀ c ∈ P, candidateSpec inList url c < candidateSpec inList url a)
    (hM : ∀ c ∈ M, candidateSpec inList url c < candidateSpec inList url a)
    (hS : ∀ c ∈ S, candidateSpec inList url c < candidateSpec inList url a) :
    getThemeFor inList url themes = some a := by
  have hP' : ∀ q ∈ P.map (fun t => (candidateSpec inList url t, t)),
      q.1 < ((candidateSpec inList url a, a) : Nat × StaticTheme).1 := by
    intro q hq
    rw [List.mem_map] at hq
    obtain ⟨c, hcP, rfl⟩ := hq
    exact hP c hcP
  have hS' : ∀ q ∈ (M.map (fun t => (candidateSpec inList url t, t)) ++
      (candidateSpec inList url b, b) ::
        S.map (fun t => (candidateSpec inList url t, t))),
      q.1 ≤ ((candidateSpec inList url a, a) : Nat × StaticTheme).1 := by
    intro q hq
    rcases List.mem_append.mp hq with hqM | hqb
    · rw [List.mem_map] at hqM
      obtain ⟨c, hcM, rfl⟩ := hqM
      exact Nat.le_of_lt (hM c hcM)
    · rcases List.mem_cons.mp hqb with h | hqS
      · rw [h]
        exact Nat.le_of_eq heq.symm
      · rw [List.mem_map] at hqS
        obtain ⟨c, hcS, rfl⟩ := hqS
        exact Nat.le_of_lt (hS c hcS)
  have hfm := firstMaxScored_first
    (P.map (fun t => (candidateSpec inList url t, t)))
    (M.map (fun t => (candidateSpec inList url t, t)) ++
      (candidateSpec inList url b, b) ::
        S.map (fun t => (candidateSpec inList url t, t)))
    (candidateSpec inList url a, a) hP' hS'
  rw [getThemeFor_eq_firstMax, hc]
  simp only [List.map_append, List.map_cons]
  rw [hfm]
  rfl

/-- C4 witness: a concrete tie at the maximum specificity with a
further, lower-specificity candidate sitting between the tied pair,
resolved to the earlier record. -/
theorem getThemeFor_tie_first_witness :
    getThemeFor (fun _ pats => decide (pats ≠ ["*"])) "u"
      [{ url := ["*"] }, { url := ["aa"] }, { url := ["c"] },
       { url := ["bb"] }] = some { url := ["aa"] } :=
  getThemeFor_tie_first (fun _ pats => decide (pats ≠ ["*"])) "u"
    [{ url := ["*"] }, { url := ["aa"] }, { url := ["c"] },
     { url := ["bb"] }]
    { url := ["aa"] } { url := ["bb"] } [] [{ url := ["c"] }] []
    (by decide) (by decide) (by decide) (by decide) (by decide)

/-! ### C6: the mixing constants and the concrete hover mix -/

/-- C6: the mixing amounts are 0.075 (bg hover), 0.1 (bg active),
0.25 (text hover), 0.5 (text active) and 0.5 (border); mixing the base
color `[16,20,23]` with the accent `[255,255,255]` at the bg-hover
amount yields exactly `[34,38,40]`, rendered `rgb(34, 38, 40)`, and the
rule table's neutral-background hover entry emits exactly that color. -/
theorem mix_levels_hover_concrete :
    mx.bgHover = 3 / 40 ∧ mx.bgActive = 1 / 10 ∧ mx.fgHover = 1 / 4 ∧
    mx.fgActive = 1 / 2 ∧ mx.border = 1 / 2 ∧
    mix [16, 20, 23] [255, 255, 255] mx.bgHover = [34, 38, 40] ∧
    rgb (mix [16, 20, 23] [255, 255, 255] mx.bgHover) = "rgb(34, 38, 40)" ∧
    ruleGenerators.getD 2 (fun _ _ => none)
        { url := ["*"], props := [("neutralBgActive", .listV ["a"])] }
        darkTheme =
      some "a:hover \x7b\n    background-color: rgb(34, 38, 40) !important;\n\x7d" := by
  refine ⟨by norm_num [mx, Rat.mkRat_eq_div], by norm_num [mx, Rat.mkRat_eq_div],
    by norm_num [mx, Rat.mkRat_eq_div], by norm_num [mx, Rat.mkRat_eq_div],
    by norm_num [mx, Rat.mkRat_eq_div], ?_, ?_, ?_⟩
  · decide
  · decide
  · decide

/-! ### C7: the derived palette -/

theorem getA_foldl_setA_not_mem {ν μ : Type} (f : String → ν → μ)
    (em : List (String × ν)) (init : List (String × μ)) (q : String)
    (hq : ∀ e ∈ em, e.1 ≠ q) :
    getA (em.foldl (fun ps e => setA ps e.1 (f e.1 e.2)) init) q = getA init q := by
  induction em generalizing init with
  | nil => rfl
  | cons e rest ih =>
      rw [List.foldl_cons,
        ih _ (fun e' he' => hq e' (List.mem_cons_of_mem _ he')),
        getA_setA_ne _ _ _ _ (hq e (List.mem_cons_self _ _))]

theorem getA_foldl_setA {ν μ : Type} (f : String → ν → μ) :
    ∀ (em : List (String × ν)), (em.map Prod.fst).Nodup →
      ∀ (init : List (String × μ)) (q : String) (c : ν),
        getA em q = some c →
        getA (em.foldl (fun ps e => setA ps e.1 (f e.1 e.2)) init) q =
          some (f q c) := by
  intro em
  induction em with
  | nil => intro _ init q c hfind; cases hfind
  | cons e rest ih =>
      intro hn init q c hfind
      obtain ⟨k, v⟩ := e
      rw [List.foldl_cons]
      by_cases he : k = q
      · subst he
        have hc : c = v := by
          rw [getA, if_pos rfl] at hfind
          cases hfind
          rfl
        subst hc
        have hrest : ∀ e' ∈ rest, e'.1 ≠ k := by
          intro e' he' hq'
          have hnot := (List.nodup_cons.mp hn).1
          have hmm : e'.1 ∈ rest.map Prod.fst := List.mem_map_of_mem Prod.fst he'
          rw [hq'] at hmm
          exact hnot hmm
        rw [getA_foldl_setA_not_mem _ _ _ _ hrest, getA_setA_self]
      · rw [getA, if_neg he] at hfind
        exact ih (List.nodup_cons.mp hn).2 _ q c hfind

/-- C7: the derived palette is built from the dark base palette when
`config.mode = 1` and from the light base palette otherwise, and every
role of the selected base palette is present in the derived palette
with its color passed through `applyFilterToColor` under the caller's
config with the mode flag forced to 0. -/
theorem derivedTheme_characterization (af : List ℚ → FilterConfig → List ℚ)
    (config : FilterConfig) (p : String) (c : List ℚ)
    (h : getA (if config.mode = 1 then darkTheme else lightTheme) p = some c) :
    getA (derivedTheme af config) p = some (af c { config with mode := 0 }) := by
  rw [derivedTheme]
  have hn : (((if config.mode = 1 then darkTheme else lightTheme) :
      ThemeColors).map Prod.fst).Nodup := by
    by_cases hm : config.mode = 1
    · rw [if_pos hm]; decide
    · rw [if_neg hm]; decide
  exact getA_foldl_setA (fun _ v => af v { config with mode := 0 }) _ hn [] p c h

/-- C7 witness: the neutral background role of the dark palette under an
identity filter. -/
theorem derivedTheme_characterization_witness :
    getA (derivedTheme (fun c _ => c)
        { mode := 1, useFont := false, textStroke := 0 }) "neutralBg" =
      some [16, 20, 23] :=
  derivedTheme_characterization (fun c _ => c)
    { mode := 1, useFont := false, textStroke := 0 } "neutralBg" [16, 20, 23]
    (by decide)

/-! ### C5, C10: the stylesheet generator and the rule table -/

theorem interData_cons₂ (s y : String) (ys : List String) :
    interData (s :: y :: ys) = s.data ++ '\n' :: interData (y :: ys) :=
  rfl

theorem getLast?_interData_append (L : List String) (s : String)
    (hs : s.data ≠ []) :
    (interData (L ++ [s])).getLast? = s.data.getLast? := by
  obtain ⟨d, hd⟩ : ∃ d, s.data.getLast? = some d :=
    Option.isSome_iff_exists.mp (List.getLast?_isSome.mpr hs)
  induction L with
  | nil => rfl
  | cons x L' ih =>
      have hcons : interData ((x :: L') ++ [s]) =
          x.data ++ '\n' :: interData (L' ++ [s]) := by
        cases L' with
        | nil => rfl
        | cons y ys => rfl
      rw [hcons, List.getLast?_append]
      cases hI : interData (L' ++ [s]) with
      | nil =>
          rw [hI] at ih
          rw [hd] at ih
          cases ih
      | cons c z =>
          rw [hI] at ih
          rw [List.getLast?_cons_cons, ih, hd]
          rfl

theorem createRuleGen_eq_none_iff (gs : StaticTheme → List String)
    (gd : ThemeColors → List String) (ms : String → String)
    (t : StaticTheme) (tc : ThemeColors) :
    createRuleGen gs gd ms t tc = none ↔ gs t = [] := by
  by_cases h : gs t = [] <;> simp [createRuleGen, h]

theorem createRuleGen_some (gs : StaticTheme → List String)
    (gd : ThemeColors → List String) (ms : String → String)
    (t : StaticTheme) (tc : ThemeColors) (h : gs t ≠ []) :
    createRuleGen gs gd ms t tc =
      some (renderRule ((gs t).map ms) (gd tc)) := by
  simp [createRuleGen, h]

theorem renderRule_getLast (selectors decls : List String) :
    (renderRule selectors decls).data.getLast? = some '\x7d' := by
  rw [renderRule, joinLines]
  exact getLast?_interData_append _ "\x7d" (by decide)

theorem createRuleGen_some_shape (gs : StaticTheme → List String)
    (gd : ThemeColors → List String) (ms : String → String)
    (t : StaticTheme) (tc : ThemeColors) (s : String)
    (h : createRuleGen gs gd ms t tc = some s) :
    s.data.getLast? = some '\x7d' := by
  by_cases hsel : gs t = []
  · rw [(createRuleGen_eq_none_iff gs gd ms t tc).mpr hsel] at h
    cases h
  · rw [createRuleGen_some gs gd ms t tc hsel] at h
    cases h
    exact renderRule_getLast _ _

theorem mem_colorGroup_shape (p1 p2 p3 p4 p5 : String) (a1 a2 : List ℚ)
    (g : StaticTheme → ThemeColors → Option String)
    (hg : g ∈ colorGroup p1 p2 p3 p4 p5 a1 a2) :
    ∃ gs gd ms, g = createRuleGen gs gd ms := by
  simp only [colorGroup, List.mem_cons, List.not_mem_nil, or_false] at hg
  rcases hg with rfl|rfl|rfl|rfl|rfl|rfl|rfl|rfl|rfl <;> exact ⟨_, _, _, rfl⟩

theorem mem_ruleGenerators_shape (g : StaticTheme → ThemeColors → Option String)
    (hg : g ∈ ruleGenerators) :
    ∃ gs gd ms, g = createRuleGen gs gd ms := by
  simp only [ruleGenerators, List.mem_append] at hg
  rcases hg with ((((hg|hg)|hg)|hg)|hg)
  · exact mem_colorGroup_shape _ _ _ _ _ _ _ _ hg
  · exact mem_colorGroup_shape _ _ _ _ _ _ _ _ hg
  · exact mem_colorGroup_shape _ _ _ _ _ _ _ _ hg
  · exact mem_colorGroup_shape _ _ _ _ _ _ _ _ hg
  · simp only [List.mem_cons, List.not_mem_nil, or_false] at hg
    rcases hg with rfl|rfl|rfl|rfl|rfl <;> exact ⟨_, _, _, rfl⟩

theorem ruleGenerators_output_brace (g : StaticTheme → ThemeColors → Option String)
    (hg : g ∈ ruleGenerators) (t : StaticTheme) (tc : ThemeColors) (s : String)
    (h : g t tc = some s) : s.data.getLast? = some '\x7d' := by
  obtain ⟨gs, gd, ms, rfl⟩ := mem_ruleGenerators_shape g hg
  exact createRuleGen_some_shape gs gd ms t tc s h

theorem append2_ne (a y w : String) (i : Nat) (hi : i < a.data.length)
    (hne : a.data[i]? ≠ w.data[i]?) : (a ++ y) ≠ w := by
  intro he
  apply hne
  have hd := congrArg String.data he
  rw [String.data_append] at hd
  rw [← hd, List.getElem?_append_left hi]

theorem append3_ne (a y c w : String) (i : Nat) (hi : i < a.data.length)
    (hne : a.data[i]? ≠ w.data[i]?) : (a ++ y ++ c) ≠ w := by
  intro he
  apply hne
  have hd := congrArg String.data he
  rw [String.data_append, String.data_append, List.append_assoc] at hd
  rw [← hd, List.getElem?_append_left hi]

theorem brace_ne_comment (s : String) (h : s.data.getLast? = some '\x7d') :
    s ≠ "/* Common theme */" := by
  intro he
  subst he
  exact absurd h (by decide)

/-- C5: when the resolved specific record has a truthy `noCommon`, no
`/* Common theme */` line appears among the generated lines; when no
specific record is resolved or its `noCommon` is falsy, the lines begin
with the `/* Common theme */` comment followed by the rule table's
output for the common record. -/
theorem staticLines_common_block
    (af : List ℚ → FilterConfig → List ℚ) (ctr : FilterConfig → String)
    (inList : String → List String → Bool) (config : FilterConfig)
    (url : String) (themes : List StaticTheme) (hne : themes ≠ []) :
    (∀ t, getThemeFor inList url themes = some t → t.noCommonB = true →
      some "/* Common theme */" ∉ staticLines af ctr inList config url themes) ∧
    ((∀ t, getThemeFor inList url themes = some t → t.noCommonB = false) →
      ∃ rest, staticLines af ctr inList config url themes =
        some "/* Common theme */" ::
          (ruleGenerators.map
            (fun gen => gen (getCommonTheme themes) (derivedTheme af config)) ++
            rest)) := by
  have hlines : ∀ t, getThemeFor inList url themes = some t →
      t.noCommonB = true →
      staticLines af ctr inList config url themes =
        (some ("/* Theme for " ++ String.intercalate " " t.url ++ " */") ::
          ruleGenerators.map (fun gen => gen t (derivedTheme af config))) ++
        (if config.useFont || decide (config.textStroke > 0) then
          [some "/* Font */", some ("* " ++ ctr config)] else []) := by
    intro t hsite hnc
    simp [staticLines, hsite, hnc]
  constructor
  · intro t hsite hnc hmem
    rw [hlines t hsite hnc] at hmem
    rw [List.mem_append, List.mem_cons] at hmem
    rcases hmem with (hmem | hmem) | hmem
    · rw [Option.some.injEq] at hmem
      exact append3_ne "/* Theme for " (String.intercalate " " t.url) " */"
        "/* Common theme */" 3 (by decide) (by decide) hmem.symm
    · rw [List.mem_map] at hmem
      obtain ⟨gen, hgen, hout⟩ := hmem
      exact brace_ne_comment _
        (ruleGenerators_output_brace gen hgen t (derivedTheme af config) _ hout)
        rfl
    · by_cases hf : (config.useFont || decide (config.textStroke > 0)) = true
      · rw [if_pos hf] at hmem
        rw [List.mem_cons, List.mem_cons] at hmem
        rcases hmem with hmem | hmem | hmem
        · exact absurd hmem (by decide)
        · rw [Option.some.injEq] at hmem
          exact append2_ne "* " (ctr config) "/* Common theme */" 0
            (by decide) (by decide) hmem.symm
        · cases hmem
      · rw [if_neg hf] at hmem
        cases hmem
  · intro hnc
    cases hsite : getThemeFor inList url themes with
    | none =>
        refine ⟨(if config.useFont || decide (config.textStroke > 0) then
          [some "/* Font */", some ("* " ++ ctr config)] else []), ?_⟩
        simp [staticLines, hsite]
    | some t =>
        refine ⟨(some ("/* Theme for " ++ String.intercalate " " t.url ++ " */") ::
          ruleGenerators.map (fun gen => gen t (derivedTheme af config))) ++
          (if config.useFont || decide (config.textStroke > 0) then
            [some "/* Font */", some ("* " ++ ctr config)] else []), ?_⟩
        simp [staticLines, hsite, hnc t hsite]

/-- C5 witness: a concrete catalogue whose resolved record sets
`noCommon`, on which no common-theme comment line is generated. -/
theorem staticLines_common_block_witness :
    some "/* Common theme */" ∉
      staticLines (fun c _ => c) (fun _ => "") (fun _ pats => decide (pats = ["e"]))
        { mode := 1, useFont := false, textStroke := 0 } "u"
        [{ url := ["*"] }, { url := ["e"], props := [("noCommon", .boolV true)] }] :=
  (staticLines_common_block (fun c _ => c) (fun _ => "")
    (fun _ pats => decide (pats = ["e"]))
    { mode := 1, useFont := false, textStroke := 0 } "u"
    [{ url := ["*"] }, { url := ["e"], props := [("noCommon", .boolV true)] }]
    (by decide)).1
    { url := ["e"], props := [("noCommon", .boolV true)] } (by decide) (by decide)

theorem activeTriple_of (t : StaticTheme) (tc : ThemeColors)
    (iBase iHover iActive : Nat) (activeProp baseProp cssProp : String)
    (hB : ruleGenerators.getD iBase noGen =
      createRuleGen (fun r => r.selList activeProp)
        (fun c => [cssProp ++ ": " ++ rgb (colorOf c baseProp)]))
    (hH : ∃ gd, ruleGenerators.getD iHover noGen =
      createRuleGen (fun r => r.selList activeProp) gd hoverMod)
    (hA : ∃ gd, ruleGenerators.getD iActive noGen =
      createRuleGen (fun r => r.selList activeProp) gd activeMod) :
    activeTriple t tc iBase iHover iActive activeProp baseProp cssProp := by
  obtain ⟨gdH, hH⟩ := hH
  obtain ⟨gdA, hA⟩ := hA
  refine ⟨?_, ?_, ?_⟩
  · rw [hH]
    exact not_congr (createRuleGen_eq_none_iff _ _ _ _ _)
  · rw [hA]
    exact not_congr (createRuleGen_eq_none_iff _ _ _ _ _)
  · intro hne
    rw [hB, createRuleGen_some _ _ _ _ _ hne, List.map_id]

/-- C10: for every record, every palette and each of the eight color
roles, the `:hover` and `:active, :focus` rules are generated iff the
record's `<role>Active` selector list is present and non-empty (so a
record with only the base list produces no hover/active rules), and a
non-empty `<role>Active` list also produces the base-state rule
assigning the un-mixed base role color to those selectors. -/
theorem ruleTable_active_characterization (t : StaticTheme) (tc : ThemeColors)
    (hw : ∀ kv ∈ t.props, kv.1 = "noCommon" ∨ kv.2.isArr = true) :
    activeTriple t tc 1 2 3 "neutralBgActive" "neutralBg" "background-color" ∧
    activeTriple t tc 5 6 7 "neutralTextActive" "neutralText" "color" ∧
    activeTriple t tc 10 11 12 "redBgActive" "redBg" "background-color" ∧
    activeTriple t tc 14 15 16 "redTextActive" "redText" "color" ∧
    activeTriple t tc 19 20 21 "greenBgActive" "greenBg" "background-color" ∧
    activeTriple t tc 23 24 25 "greenTextActive" "greenText" "color" ∧
    activeTriple t tc 28 29 30 "blueBgActive" "blueBg" "background-color" ∧
    activeTriple t tc 32 33 34 "blueTextActive" "blueText" "color" :=
  ⟨activeTriple_of t tc _ _ _ _ _ _ rfl ⟨_, rfl⟩ ⟨_, rfl⟩,
   activeTriple_of t tc _ _ _ _ _ _ rfl ⟨_, rfl⟩ ⟨_, rfl⟩,
   activeTriple_of t tc _ _ _ _ _ _ rfl ⟨_, rfl⟩ ⟨_, rfl⟩,
   activeTriple_of t tc _ _ _ _ _ _ rfl ⟨_, rfl⟩ ⟨_, rfl⟩,
   activeTriple_of t tc _ _ _ _ _ _ rfl ⟨_, rfl⟩ ⟨_, rfl⟩,
   activeTriple_of t tc _ _ _ _ _ _ rfl ⟨_, rfl⟩ ⟨_, rfl⟩,
   activeTriple_of t tc _ _ _ _ _ _ rfl ⟨_, rfl⟩ ⟨_, rfl⟩,
   activeTriple_of t tc _ _ _ _ _ _ rfl ⟨_, rfl⟩ ⟨_, rfl⟩⟩

/-- C10 witness: a record with a one-selector `neutralBgActive` list
produces a hover rule. -/
theorem ruleTable_active_characterization_witness :
    ruleGenerators.getD 2 noGen
      { url := ["*"], props := [("neutralBgActive", .listV ["a"])] }
      darkTheme ≠ none :=
  ((ruleTable_active_characterization
    { url := ["*"], props := [("neutralBgActive", .listV ["a"])] }
    darkTheme (by decide)).1.1).mpr (by decide)

/-! ### C2: round-tripping a well-formed catalogue through
`formatUrlSelectorConfig` and `parseUrlSelectorConfig` -/

theorem staticThemeProps_nodup : staticThemeProps.Nodup := by decide

theorem upper_isProp :
    ∀ p ∈ staticThemeProps, isPropertyName (camelCaseToUpperCase p) = true := by
  decide

theorem upper_camel :
    ∀ p ∈ staticThemeProps, toCamel (camelCaseToUpperCase p) = p := by
  decide

theorem upper_goodLine :
    ∀ p ∈ staticThemeProps, goodLine (camelCaseToUpperCase p) := by
  decide

theorem sep32_no_cr : '\r' ∉ (String.mk (List.replicate 32 '=')).data := by
  decide

theorem blank_lineOk : lineOk "" := by
  constructor
  · exact List.chain'_nil
  · exact ⟨by decide, by decide⟩

theorem interData_cons_of_ne_nil (s : String) (L : List String) (h : L ≠ []) :
    interData (s :: L) = s.data ++ '\n' :: interData L := by
  cases L with
  | nil => cases h rfl
  | cons y ys => rfl

theorem interData_append (A B : List String) (hA : A ≠ []) (hB : B ≠ []) :
    interData (A ++ B) = interData A ++ '\n' :: interData B := by
  induction A with
  | nil => cases hA rfl
  | cons x A' ih =>
      cases A' with
      | nil =>
          rw [List.singleton_append, interData_cons_of_ne_nil x B hB]
          rfl
      | cons y A'' =>
          rw [List.cons_append,
            interData_cons_of_ne_nil x ((y :: A'') ++ B) (by simp),
            ih (by simp), interData_cons₂, List.append_assoc]
          rfl

theorem mem_interData (c : Char) (L : List String) (h : c ∈ interData L) :
    c = '\n' ∨ ∃ s ∈ L, c ∈ s.data := by
  induction L with
  | nil => cases h
  | cons x L' ih =>
      cases L' with
      | nil =>
          right
          exact ⟨x, List.mem_cons_self _ _, h⟩
      | cons y L'' =>
          rw [interData_cons₂, List.mem_append, List.mem_cons] at h
          rcases h with h | h | h
          · exact Or.inr ⟨x, List.mem_cons_self _ _, h⟩
          · exact Or.inl h
          · rcases ih h with h' | ⟨s, hs, hc⟩
            · exact Or.inl h'
            · exact Or.inr ⟨s, List.mem_cons_of_mem _ hs, hc⟩

theorem cleanRun_interData (L : List String) (h : ∀ s ∈ L, cleanRun s.data) :
    cleanRun (interData L) := by
  induction L with
  | nil => exact List.chain'_nil
  | cons x L' ih =>
      cases L' with
      | nil => exact h x (List.mem_cons_self _ _)
      | cons y L'' =>
          rw [interData_cons₂, cleanRun, List.chain'_append]
          refine ⟨h x (List.mem_cons_self _ _), ?_, ?_⟩
          · rw [List.chain'_cons']
            refine ⟨?_, ih (fun s hs => h s (List.mem_cons_of_mem _ hs))⟩
            intro z _ hz
            exact absurd hz.1 (by decide)
          · intro z _ w hw
            rw [List.head?_cons, Option.mem_def, Option.some.injEq] at hw
            intro hzw
            rw [← hw] at hzw
            exact absurd hzw.2 (by decide)

theorem splitOnChar_no_sep (sep : Char) (xs : List Char) (h : sep ∉ xs) :
    splitOnChar sep xs = [xs] := by
  induction xs with
  | nil => rfl
  | cons c cs ih =>
      have hc : ¬(c = sep) := fun hc => h (hc ▸ List.mem_cons_self _ _)
      rw [splitOnChar, ih (fun hm => h (List.mem_cons_of_mem _ hm))]
      simp [hc]

theorem splitOnChar_append_sep (sep : Char) (xs ys : List Char) (h : sep ∉ xs) :
    splitOnChar sep (xs ++ sep :: ys) = xs :: splitOnChar sep ys := by
  induction xs with
  | nil =>
      rw [List.nil_append, splitOnChar]
      cases hys : splitOnChar sep ys with
      | nil => rfl
      | cons l ls => simp
  | cons c cs ih =>
      have hc : ¬(c = sep) := fun hc => h (hc ▸ List.mem_cons_self _ _)
      rw [List.cons_append, splitOnChar,
        ih (fun hm => h (List.mem_cons_of_mem _ hm))]
      simp [hc]

theorem splitOnChar_interData (L : List String)
    (h : ∀ s ∈ L, '\n' ∉ s.data) (hL : L ≠ []) :
    splitOnChar '\n' (interData L) = L.map String.data := by
  induction L with
  | nil => cases hL rfl
  | cons x L' ih =>
      cases L' with
      | nil =>
          rw [List.map_cons, List.map_nil]
          exact splitOnChar_no_sep '\n' x.data (h x (List.mem_cons_self _ _))
      | cons y L'' =>
          rw [interData_cons₂,
            splitOnChar_append_sep '\n' x.data _ (h x (List.mem_cons_self _ _)),
            ih (fun s hs => h s (List.mem_cons_of_mem _ hs)) (by simp)]
          simp

theorem getLast?_suffix_ne (l₁ l₂ : List Char)
    (h : (l₁ ++ l₂).getLast? ≠ some '=') (h2 : l₂ ≠ []) :
    l₂.getLast? ≠ some '=' := by
  obtain ⟨d, hd⟩ := Option.isSome_iff_exists.mp (List.getLast?_isSome.mpr h2)
  rw [List.getLast?_append, hd, Option.or_some] at h
  rw [hd]
  exact h

theorem foldl_splitStep_clean :
    ∀ (a : List Char) (bl : List (List Char)) (acc : List Char) (eqs : Nat),
      eqs ≤ 1 →
      cleanRun (List.replicate eqs '=' ++ a) →
      (List.replicate eqs '=' ++ a).getLast? ≠ some '=' →
      a.foldl splitStep ⟨bl, acc, eqs⟩ =
        ⟨bl, a.reverse ++ (List.replicate eqs '=' ++ acc), 0⟩ := by
  intro a
  induction a with
  | nil =>
      intro bl acc eqs hle hclean hlast
      interval_cases eqs
      · rfl
      · exact absurd (by decide) hlast
  | cons c rest ih =>
      intro bl acc eqs hle hclean hlast
      rw [List.foldl_cons]
      by_cases hc : c = '='
      · subst hc
        have heq0 : eqs = 0 := by
          interval_cases eqs
          · rfl
          · exfalso
            rw [show (List.replicate 1 '=' ++ '=' :: rest) = '=' :: '=' :: rest
              from rfl, cleanRun, List.chain'_cons] at hclean
            exact hclean.1 ⟨rfl, rfl⟩
        subst heq0
        rw [show splitStep ⟨bl, acc, 0⟩ '=' = ⟨bl, acc, 1⟩ from by
          simp [splitStep]]
        rw [ih bl acc 1 (Nat.le_refl 1) hclean hlast]
        simp

      · have hstep : splitStep ⟨bl, acc, eqs⟩ c =
            ⟨bl, c :: (List.replicate eqs '=' ++ acc), 0⟩ := by
          rw [splitStep]
          rw [if_neg hc, if_neg (by change ¬ eqs ≥ 2; omega)]
        rw [hstep]
        have hsfx : rest <:+ List.replicate eqs '=' ++ c :: rest :=
          (List.suffix_cons c rest).trans (List.suffix_append _ _)
        rw [ih bl _ 0 (by omega) (by exact hclean.suffix hsfx) ?hl]
        case hl =>
          cases hrest : rest with
          | nil => exact (by decide : (([] : List Char)).getLast? ≠ some '=')
          | cons d rest' =>
              have : ((List.replicate eqs '=' ++ [c]) ++ (d :: rest')).getLast? ≠
                  some '=' := by
                rw [List.append_assoc, List.cons_append, List.nil_append]
                rw [← hrest]
                exact hlast
              exact getLast?_suffix_ne _ _ this (by simp)
        simp [List.append_assoc]

theorem foldl_splitStep_eqs (n : Nat) (bl : List (List Char)) (acc : List Char)
    (eqs : Nat) :
    (List.replicate n '=').foldl splitStep ⟨bl, acc, eqs⟩ =
      ⟨bl, acc, eqs + n⟩ := by
  induction n generalizing eqs with
  | zero => rfl
  | succ n' ih =>
      rw [List.replicate_succ, List.foldl_cons,
        show splitStep ⟨bl, acc, eqs⟩ '=' = ⟨bl, acc, eqs + 1⟩ from by
          simp [splitStep],
        ih (eqs + 1)]
      congr 1
      omega

theorem splitStep_flush (bl : List (List Char)) (acc : List Char) (eqs : Nat)
    (h : eqs ≥ 2) :
    splitStep ⟨bl, acc, eqs⟩ '\n' = ⟨bl ++ [acc.reverse], ['\n'], 0⟩ := by
  rw [splitStep, if_neg (by decide), if_pos h]

theorem foldl_splitStep_clean0 (a : List Char) (bl : List (List Char))
    (acc : List Char) (hclean : cleanRun a) (hlast : a.getLast? ≠ some '=') :
    a.foldl splitStep ⟨bl, acc, 0⟩ = ⟨bl, a.reverse ++ acc, 0⟩ := by
  rw [foldl_splitStep_clean a bl acc 0 (by omega) hclean hlast]
  rfl

theorem splitStep_newline0 (bl : List (List Char)) :
    splitStep ⟨bl, ['\n'], 0⟩ '\n' = ⟨bl, ['\n', '\n'], 0⟩ := by
  rw [splitStep, if_neg (by decide), if_neg (by change ¬ (0 ≥ 2); omega)]
  rfl

theorem splitFinish_zero (bl : List (List Char)) (acc : List Char) :
    splitFinish ⟨bl, acc, 0⟩ = bl ++ [acc.reverse] := by
  rw [splitFinish, if_neg (by change ¬ (0 ≥ 2); omega)]
  rfl

theorem getA_mem {ν : Type} (ps : List (String × ν)) (q : String) (v : ν)
    (h : getA ps q = some v) : (q, v) ∈ ps := by
  induction ps with
  | nil => cases h
  | cons kv rest ih =>
      obtain ⟨k, w⟩ := kv
      rw [getA] at h
      by_cases hk : k = q
      · rw [if_pos hk] at h
        cases h
        cases hk
        exact List.mem_cons_self _ _
      · rw [if_neg hk] at h
        exact List.mem_cons_of_mem _ (ih h)

theorem selList_good (t : StaticTheme) (hwf : wellFormedRecord t) (p l : String)
    (hl : l ∈ t.selList p) : goodLine l ∧ isPropertyName l = false := by
  rw [StaticTheme.selList] at hl
  cases hg : getA t.props p with
  | none => rw [hg] at hl; cases hl
  | some v =>
      rw [hg] at hl
      cases v with
      | boolV b => cases hl
      | listV ls =>
          have hmem := getA_mem _ _ _ hg
          exact (hwf.2.2 (p, .listV ls) hmem).2.2 l hl

theorem mem_recordLines (t : StaticTheme) (l : String) (hl : l ∈ recordLines t) :
    l ∈ t.url ∨ l = "" ∨ (∃ p ∈ staticThemeProps, l = camelCaseToUpperCase p) ∨
      ∃ p, l ∈ t.selList p := by
  rw [recordLines, List.mem_append] at hl
  rcases hl with hl | hl
  · exact Or.inl hl
  · rw [List.mem_flatMap] at hl
    obtain ⟨p, hp, hl⟩ := hl
    by_cases hc : emitCond t p = true
    · rw [if_pos hc] at hl
      rw [List.mem_cons, List.mem_cons] at hl
      rcases hl with rfl | rfl | hl
      · exact Or.inr (Or.inl rfl)
      · exact Or.inr (Or.inr (Or.inl ⟨p, hp, rfl⟩))
      · rw [emitBody] at hl
        by_cases ha : propIsArray t p = true
        · rw [if_pos ha] at hl
          exact Or.inr (Or.inr (Or.inr ⟨p, hl⟩))
        · rw [if_neg ha] at hl
          cases hl
    · rw [if_neg hc] at hl
      cases hl

theorem recordLines_lineOk (t : StaticTheme) (hwf : wellFormedRecord t) :
    ∀ l ∈ recordLines t, lineOk l := by
  intro l hl
  rcases mem_recordLines t l hl with h | rfl | ⟨p, hp, rfl⟩ | ⟨p, hmem⟩
  · exact (hwf.2.1 l h).1.1
  · exact blank_lineOk
  · exact (upper_goodLine p hp).1
  · exact (selList_good t hwf p l hmem).1.1

theorem recordLines_ne_nil (t : StaticTheme) (h : t.url ≠ []) :
    recordLines t ≠ [] := by
  rw [recordLines]
  intro he
  exact h (List.append_eq_nil.mp he).1

theorem formatLines_cons₂ (t t' : StaticTheme) (rest : List StaticTheme) :
    formatLines (t :: t' :: rest) =
      recordLines t ++ sepLines ++ formatLines (t' :: rest) :=
  rfl

theorem mem_formatLines (l : String) :
    ∀ rs, l ∈ formatLines rs →
      (∃ t ∈ rs, l ∈ recordLines t) ∨ l ∈ sepLines
  | [] => by intro h; cases h
  | [t] => fun h => Or.inl ⟨t, List.mem_cons_self _ _, h⟩
  | t :: t' :: rest => by
      intro h
      rw [formatLines_cons₂, List.append_assoc, List.mem_append] at h
      rcases h with h | h
      · exact Or.inl ⟨t, List.mem_cons_self _ _, h⟩
      · rw [List.mem_append] at h
        rcases h with h | h
        · exact Or.inr h
        · rcases mem_formatLines l (t' :: rest) h with ⟨u, hu, hl⟩ | h
          · exact Or.inl ⟨u, List.mem_cons_of_mem _ hu, hl⟩
          · exact Or.inr h

theorem formatLines_no_cr (rs : List StaticTheme)
    (hwf : ∀ t ∈ rs, wellFormedRecord t) :
    ∀ l ∈ formatLines rs ++ [""], '\r' ∉ l.data := by
  intro l hl
  rw [List.mem_append, List.mem_cons] at hl
  rcases hl with hl | rfl | hl
  · rcases mem_formatLines l rs hl with ⟨t, ht, hl⟩ | hl
    · exact (recordLines_lineOk t (hwf t ht) l hl).2.2
    · rw [sepLines, List.mem_cons, List.mem_cons, List.mem_cons] at hl
      rcases hl with rfl | rfl | rfl | hl
      · decide
      · exact sep32_no_cr
      · decide
      · cases hl
  · decide
  · cases hl

theorem cleanRun_blockPadded (t : StaticTheme) (hwf : wellFormedRecord t)
    (S : List String) (hS : ∀ x ∈ S, x = "") (hSne : S ≠ []) :
    cleanRun (interData (recordLines t ++ S)) := by
  apply cleanRun_interData
  intro s hs
  rw [List.mem_append] at hs
  rcases hs with hs | hs
  · exact (recordLines_lineOk t hwf s hs).1
  · rw [hS s hs]
    exact List.chain'_nil

theorem splitFinish_foldl_format :
    ∀ (rs : List StaticTheme), rs ≠ [] → (∀ t ∈ rs, wellFormedRecord t) →
      ∀ (bl : List (List Char)) (acc : List Char),
        splitFinish ((interData (formatLines rs ++ [""])).foldl splitStep
          ⟨bl, acc, 0⟩) = bl ++ expBlocks acc.reverse rs := by
  intro rs
  induction rs with
  | nil => intro h; cases h rfl
  | cons t rest ih =>
      intro _ hwf bl acc
      have hwt : wellFormedRecord t := hwf t (List.mem_cons_self _ _)
      have hrl : recordLines t ≠ [] := recordLines_ne_nil t hwt.1
      cases rest with
      | nil =>
          have hX : interData (formatLines [t] ++ [""]) =
              blockData t ++ ['\n'] := by
            rw [show formatLines [t] = recordLines t from rfl,
              interData_append _ _ hrl (by simp)]
            rfl
          rw [hX,
            foldl_splitStep_clean0 (blockData t ++ ['\n']) bl acc
              (by
                have := cleanRun_blockPadded t hwt [""] (by simp) (by simp)
                rw [interData_append _ _ hrl (by simp)] at this
                exact this)
              (by
                rw [List.getLast?_concat]
                decide),
            splitFinish_zero]
          simp [expBlocks]
      | cons t' rest' =>
          have hF : formatLines (t' :: rest') ++ [""] ≠ [] := by simp
          have hXsplit : interData (formatLines (t :: t' :: rest') ++ [""]) =
              (blockData t ++ ['\n', '\n']) ++
                ((String.mk (List.replicate 32 '=')).data ++
                  ('\n' :: ('\n' ::
                    interData (formatLines (t' :: rest') ++ [""])))) := by
            rw [formatLines_cons₂, List.append_assoc, List.append_assoc,
              interData_append _ _ hrl (by simp [sepLines]),
              show sepLines ++ (formatLines (t' :: rest') ++ [""]) =
                "" :: String.mk (List.replicate 32 '=') :: "" ::
                  (formatLines (t' :: rest') ++ [""]) from rfl,
              interData_cons_of_ne_nil _ _ (by simp),
              interData_cons_of_ne_nil _ _ (by simp),
              interData_cons_of_ne_nil _ _ hF]
            simp [blockData, List.append_assoc]
          rw [hXsplit, List.foldl_append,
            foldl_splitStep_clean0 (blockData t ++ ['\n', '\n']) bl acc
              (by
                have := cleanRun_blockPadded t hwt ["", ""] (by simp) (by simp)
                rw [interData_append _ _ hrl (by simp),
                  show interData ["", ""] = ['\n'] from rfl] at this
                simpa using this)
              (by
                rw [show blockData t ++ ['\n', '\n'] =
                    (blockData t ++ ['\n']) ++ ['\n'] from by simp,
                  List.getLast?_concat]
                decide),
            List.foldl_append, foldl_splitStep_eqs 32, List.foldl_cons,
            splitStep_flush _ _ _ (by omega), List.foldl_cons,
            splitStep_newline0,
            ih (by simp) (fun u hu => hwf u (List.mem_cons_of_mem _ hu)) _ _]
          rw [show (['\n', '\n'] : List Char).reverse = ['\n', '\n'] from rfl]
          rw [show expBlocks acc.reverse (t :: t' :: rest') =
            (acc.reverse ++ blockData t ++ ['\n', '\n']) ::
              expBlocks ['\n', '\n'] (t' :: rest') from rfl]
          simp [List.append_assoc]

theorem setA_setA {ν : Type} (ps : List (String × ν)) (k : String) (v w : ν) :
    setA (setA ps k v) k w = setA ps k w := by
  induction ps with
  | nil => simp [setA]
  | cons kv rest ih =>
      obtain ⟨k', v'⟩ := kv
      by_cases hk : k' = k
      · subst hk
        simp [setA]
      · simp [setA, hk, ih]

theorem findIdx_append_false (P : String → Bool) (us vs : List String)
    (h : ∀ u ∈ us, P u = false) :
    (us ++ vs).findIdx P = us.length + vs.findIdx P := by
  induction us with
  | nil => simp
  | cons u us' ih =>
      rw [List.cons_append, List.findIdx_cons, h u (List.mem_cons_self _ _)]
      rw [ih (fun u' hu' => h u' (List.mem_cons_of_mem _ hu'))]
      simp only [cond_false, List.length_cons]
      omega

theorem isPropertyName_ne_blank (s : String) (h : isPropertyName s = true) :
    s ≠ "" := by
  intro he
  subst he
  exact absurd h (by decide)

theorem mem_emittedOf (t : StaticTheme) (pb : String × List String)
    (h : pb ∈ emittedOf t) :
    pb.1 ∈ staticThemeProps ∧ emitCond t pb.1 = true ∧
      pb.2 = emitBody t pb.1 := by
  rw [emittedOf, List.mem_filterMap] at h
  obtain ⟨p, hp, hf⟩ := h
  by_cases hc : emitCond t p = true
  · rw [if_pos hc] at hf
    cases hf
    exact ⟨hp, hc, rfl⟩
  · rw [if_neg hc] at hf
    cases hf

theorem mem_emitBody_good (t : StaticTheme) (hwf : wellFormedRecord t)
    (p l : String) (hl : l ∈ emitBody t p) :
    goodLine l ∧ isPropertyName l = false := by
  rw [emitBody] at hl
  by_cases ha : propIsArray t p = true
  · rw [if_pos ha] at hl
    exact selList_good t hwf p l hl
  · rw [if_neg ha] at hl
    cases hl

theorem recordLines_eq (t : StaticTheme) :
    recordLines t = t.url ++ (emittedOf t).flatMap
      (fun pb => "" :: camelCaseToUpperCase pb.1 :: pb.2) := by
  rw [recordLines, emittedOf]
  congr 1
  generalize staticThemeProps = L
  induction L with
  | nil => rfl
  | cons p ps ih =>
      rw [List.flatMap_cons, List.filterMap_cons]
      by_cases hc : emitCond t p = true
      · rw [if_pos hc, if_pos hc, List.flatMap_cons, ih]
      · rw [if_neg hc, if_neg hc, ih]
        rfl

theorem filter_flatMap_blank {α : Type} (p : String → Bool)
    (f : α → List String) (l : List α) :
    (l.flatMap f).filter p = l.flatMap (fun a => (f a).filter p) := by
  induction l with
  | nil => rfl
  | cons x xs ih =>
      rw [List.flatMap_cons, List.flatMap_cons, List.filter_append, ih]

theorem filter_recordLines (t : StaticTheme) (hwf : wellFormedRecord t) :
    (recordLines t).filter (fun l => l ≠ "") = t.url ++ sectionsOf t := by
  rw [recordLines_eq, List.filter_append, sectionsOf]
  congr 1
  · exact List.filter_eq_self.mpr
      (fun u hu => decide_eq_true (hwf.2.1 u hu).1.2.2)
  · rw [filter_flatMap_blank]
    have haux : ∀ em : List (String × List String),
        (∀ pb ∈ em, pb ∈ emittedOf t) →
        em.flatMap (fun pb =>
          ("" :: camelCaseToUpperCase pb.1 :: pb.2).filter (fun l => l ≠ "")) =
        em.flatMap (fun pb => camelCaseToUpperCase pb.1 :: pb.2) := by
      intro em
      induction em with
      | nil => intro _; rfl
      | cons pb rest ih =>
          intro hm
          rw [List.flatMap_cons, List.flatMap_cons,
            ih (fun q hq => hm q (List.mem_cons_of_mem _ hq))]
          congr 1
          obtain ⟨hp, hc, hb⟩ := mem_emittedOf t pb (hm pb (List.mem_cons_self _ _))
          rw [List.filter_cons, if_neg (by decide)]
          rw [List.filter_cons, if_pos
            (decide_eq_true (isPropertyName_ne_blank _ (upper_isProp pb.1 hp)))]
          congr 1
          apply List.filter_eq_self.mpr
          intro l hl
          rw [hb] at hl
          exact decide_eq_true (mem_emitBody_good t hwf pb.1 l hl).1.2.2
    exact haux (emittedOf t) (fun pb hpb => hpb)

theorem setA_getA_self {ν : Type} (ps : List (String × ν)) (k : String) (v : ν)
    (h : getA ps k = some v) : setA ps k v = ps := by
  induction ps with
  | nil => cases h
  | cons kv rest ih =>
      obtain ⟨k', v'⟩ := kv
      rw [getA] at h
      by_cases hk : k' = k
      · rw [if_pos hk] at h
        cases h
        rw [setA, if_pos hk, hk]
      · rw [if_neg hk] at h
        rw [setA, if_neg hk, ih h]

theorem parseProps_cons_body_list (l : String) (rest : List String) (p : String)
    (ps : List (String × PropVal)) (cur0 : List String)
    (hl : isPropertyName l = false) (hg : getA ps p = some (.listV cur0)) :
    parseProps (l :: rest) (some p, ps) =
      parseProps rest (some p, setA ps p (.listV (cur0 ++ [l]))) := by
  rw [parseProps_cons_body _ _ _ _ hl]
  simp only [hg]

theorem parseProps_body (b : List String)
    (hb : ∀ l ∈ b, isPropertyName l = false) :
    ∀ (rest : List String) (p : String) (ps : List (String × PropVal))
      (cur0 : List String),
      getA ps p = some (.listV cur0) →
      parseProps (b ++ rest) (some p, ps) =
        parseProps rest (some p, setA ps p (.listV (cur0 ++ b))) := by
  induction b with
  | nil =>
      intro rest p ps cur0 hg
      rw [List.nil_append, List.append_nil, setA_getA_self ps p _ hg]
  | cons l b' ih =>
      intro rest p ps cur0 hg
      rw [List.cons_append,
        parseProps_cons_body_list l _ p ps cur0 (hb l (List.mem_cons_self _ _)) hg,
        ih (fun l' hl' => hb l' (List.mem_cons_of_mem _ hl')) rest p _ _
          (getA_setA_self ps p _),
        setA_setA, List.append_assoc, List.singleton_append]

theorem parseProps_sections :
    ∀ (em : List (String × List String)),
      (∀ pb ∈ em, isPropertyName (camelCaseToUpperCase pb.1) = true ∧
        toCamel (camelCaseToUpperCase pb.1) = pb.1 ∧
        (pb.1 = "noCommon" → pb.2 = []) ∧
        (∀ l ∈ pb.2, isPropertyName l = false)) →
      ∀ (cur : Option String) (ps : List (String × PropVal)),
        parseProps (em.flatMap (fun pb => camelCaseToUpperCase pb.1 :: pb.2))
          (cur, ps) =
          .ok (em.foldl (fun ps' pb => setA ps' pb.1
            (if pb.1 = "noCommon" then .boolV true else .listV pb.2)) ps) := by
  intro em
  induction em with
  | nil => intro _ cur ps; rfl
  | cons pb rest ih =>
      intro hm cur ps
      obtain ⟨hprop, hcamel, hnc, hbody⟩ := hm pb (List.mem_cons_self _ _)
      rw [List.flatMap_cons, List.cons_append,
        parseProps_cons_prop _ _ _ _ hprop, hcamel, List.foldl_cons]
      by_cases hpn : pb.1 = "noCommon"
      · rw [if_pos hpn, hnc hpn, List.nil_append,
          ih (fun q hq => hm q (List.mem_cons_of_mem _ hq)), if_pos hpn]
      · rw [if_neg hpn,
          parseProps_body pb.2 hbody _ pb.1 _ [] (getA_setA_self ps pb.1 _),
          setA_setA, List.nil_append,
          ih (fun q hq => hm q (List.mem_cons_of_mem _ hq)), if_neg hpn]

theorem propIsArray_noCommon_false (t : StaticTheme) (hwf : wellFormedRecord t) :
    propIsArray t "noCommon" = false := by
  rw [propIsArray]
  cases hg : getA t.props "noCommon" with
  | none => rfl
  | some v =>
      cases v with
      | boolV b => rfl
      | listV ls =>
          have := (hwf.2.2 ("noCommon", .listV ls) (getA_mem _ _ _ hg)).2.1 rfl
          cases this

theorem emittedOf_facts (t : StaticTheme) (hwf : wellFormedRecord t) :
    ∀ pb ∈ emittedOf t, isPropertyName (camelCaseToUpperCase pb.1) = true ∧
      toCamel (camelCaseToUpperCase pb.1) = pb.1 ∧
      (pb.1 = "noCommon" → pb.2 = []) ∧
      (∀ l ∈ pb.2, isPropertyName l = false) := by
  intro pb hpb
  obtain ⟨hp, hc, hb⟩ := mem_emittedOf t pb hpb
  refine ⟨upper_isProp pb.1 hp, upper_camel pb.1 hp, ?_, ?_⟩
  · intro hpn
    rw [hb, hpn, emitBody, propIsArray_noCommon_false t hwf]
    rfl
  · intro l hl
    rw [hb] at hl
    exact (mem_emitBody_good t hwf pb.1 l hl).2

theorem string_mk_data (s : String) : String.mk s.data = s :=
  rfl

theorem filter_blank_nil (P : List String) (hP : ∀ x ∈ P, x = "") :
    P.filter (fun l => l ≠ "") = [] := by
  induction P with
  | nil => rfl
  | cons x P' ihP =>
      rw [List.filter_cons, if_neg (by
        rw [hP x (List.mem_cons_self _ _)]
        decide)]
      exact ihP (fun y hy => hP y (List.mem_cons_of_mem _ hy))

theorem blockLines_padded (t : StaticTheme) (hwf : wellFormedRecord t)
    (P S : List String) (hP : ∀ x ∈ P, x = "") (hS : ∀ x ∈ S, x = "") :
    blockLines (interData (P ++ recordLines t ++ S)) =
      t.url ++ sectionsOf t := by
  have hmemc : ∀ s ∈ P ++ recordLines t ++ S,
      '\n' ∉ s.data ∧ trimChars s.data = s.data := by
    intro s hs
    rw [List.append_assoc, List.mem_append, List.mem_append] at hs
    rcases hs with hs | hs | hs
    · rw [hP s hs]
      exact ⟨by decide, by decide⟩
    · rcases mem_recordLines t s hs with h | rfl | ⟨p, hp, rfl⟩ | ⟨p, hmem⟩
      · exact ⟨(hwf.2.1 s h).1.1.2.1, (hwf.2.1 s h).1.2.1⟩
      · exact ⟨by decide, by decide⟩
      · exact ⟨(upper_goodLine p hp).1.2.1, (upper_goodLine p hp).2.1⟩
      · exact ⟨(selList_good t hwf p s hmem).1.1.2.1,
          (selList_good t hwf p s hmem).1.2.1⟩
    · rw [hS s hs]
      exact ⟨by decide, by decide⟩
  have hne : P ++ recordLines t ++ S ≠ [] := by
    intro he
    rw [List.append_assoc] at he
    have := (List.append_eq_nil.mp he).2
    exact recordLines_ne_nil t hwf.1 (List.append_eq_nil.mp this).1
  rw [blockLines,
    splitOnChar_interData _ (fun s hs => (hmemc s hs).1) hne,
    List.map_map,
    List.map_congr_left (fun s hs => by
      show String.mk (trimChars s.data) = id s
      rw [(hmemc s hs).2, string_mk_data]
      rfl),
    List.map_id, List.append_assoc, List.filter_append, List.filter_append,
    filter_recordLines t hwf]
  rw [filter_blank_nil P hP, filter_blank_nil S hS, List.append_nil,
    List.nil_append]

theorem sectionsOf_findIdx (t : StaticTheme) (hwf : wellFormedRecord t) :
    (sectionsOf t).findIdx (fun l => isPropertyName l) = 0 := by
  rw [sectionsOf]
  cases hem : emittedOf t with
  | nil => rfl
  | cons pb rest =>
      rw [List.flatMap_cons, List.cons_append, List.findIdx_cons]
      have hp := (mem_emittedOf t pb (hem ▸ List.mem_cons_self pb rest)).1
      rw [upper_isProp pb.1 hp]
      rfl

theorem parseBlockChars_record (t : StaticTheme) (hwf : wellFormedRecord t)
    (P S : List String) (hP : ∀ x ∈ P, x = "") (hS : ∀ x ∈ S, x = "") :
    parseBlockChars (interData (P ++ recordLines t ++ S)) = .ok (reparse t) := by
  have hfind : (t.url ++ sectionsOf t).findIdx (fun l => isPropertyName l) =
      t.url.length := by
    rw [findIdx_append_false _ _ _ (fun u hu => (hwf.2.1 u hu).2),
      sectionsOf_findIdx t hwf, Nat.add_zero]
  rw [parseBlockChars]
  simp only [blockLines_padded t hwf P S hP hS, hfind, List.take_left,
    List.drop_left]
  rw [show (sectionsOf t) =
      (emittedOf t).flatMap (fun pb => camelCaseToUpperCase pb.1 :: pb.2)
    from rfl,
    parseProps_sections (emittedOf t) (emittedOf_facts t hwf) none []]
  rfl

theorem mapExcept_expBlocks :
    ∀ (rs : List StaticTheme), rs ≠ [] → (∀ t ∈ rs, wellFormedRecord t) →
      ∀ (p : List Char) (P : List String), (∀ x ∈ P, x = "") →
        (∀ M : List String, M ≠ [] → p ++ interData M = interData (P ++ M)) →
        mapExcept parseBlockChars (expBlocks p rs) = .ok (rs.map reparse) := by
  intro rs
  induction rs with
  | nil => intro h; cases h rfl
  | cons t rest ih =>
      intro _ hwf p P hPblank hPpre
      have hwt := hwf t (List.mem_cons_self _ _)
      have hrl := recordLines_ne_nil t hwt.1
      cases rest with
      | nil =>
          have hco : p ++ blockData t ++ ['\n'] =
              interData (P ++ (recordLines t ++ [""])) := by
            rw [← hPpre (recordLines t ++ [""]) (by simp),
              interData_append _ _ hrl (by simp)]
            simp only [blockData, List.append_assoc]
            rfl
          rw [show expBlocks p [t] = [p ++ blockData t ++ ['\n']] from rfl, hco]
          have hb := parseBlockChars_record t hwt P [""] hPblank (by simp)
          rw [show P ++ recordLines t ++ [""] = P ++ (recordLines t ++ [""])
            from by rw [List.append_assoc]] at hb
          simp only [mapExcept, hb, List.map_cons, List.map_nil]
      | cons t' rest' =>
          have hco : p ++ blockData t ++ ['\n', '\n'] =
              interData (P ++ (recordLines t ++ ["", ""])) := by
            rw [← hPpre (recordLines t ++ ["", ""]) (by simp),
              interData_append _ _ hrl (by simp)]
            simp only [blockData, List.append_assoc]
            rfl
          rw [show expBlocks p (t :: t' :: rest') =
            (p ++ blockData t ++ ['\n', '\n']) ::
              expBlocks ['\n', '\n'] (t' :: rest') from rfl, hco]
          have hb := parseBlockChars_record t hwt P ["", ""] hPblank (by simp)
          rw [show P ++ recordLines t ++ ["", ""] =
            P ++ (recordLines t ++ ["", ""]) from by rw [List.append_assoc]] at hb
          have hrest := ih (by simp)
            (fun u hu => hwf u (List.mem_cons_of_mem _ hu))
            ['\n', '\n'] ["", ""] (by simp)
            (fun M hM => by
              rw [interData_append ["", ""] M (by simp) hM]
              rfl)
          simp only [mapExcept, hb, hrest, List.map_cons]

theorem sortThemes_sorted (l : List StaticTheme)
    (h : l.Pairwise (fun a b => compare (sortKey a) (sortKey b) ≠ Ordering.gt)) :
    sortThemes l = l := by
  induction l with
  | nil => rfl
  | cons x xs ih =>
      rw [sortThemes, ih (List.pairwise_cons.mp h).2]
      cases xs with
      | nil => rfl
      | cons y ys =>
          rw [insertByKey,
            if_pos ((List.pairwise_cons.mp h).1 y (List.mem_cons_self _ _))]

theorem getA_filterMap_cond (c : String → Bool) (g : String → List String) :
    ∀ (L : List String), L.Nodup →
      ∀ q, getA (L.filterMap (fun p => if c p then some (p, g p) else none)) q =
        if q ∈ L ∧ c q = true then some (g q) else none := by
  intro L
  induction L with
  | nil =>
      intro _ q
      rw [List.filterMap_nil, getA, if_neg (by simp)]
  | cons p L' ih =>
      intro hn q
      rw [List.filterMap_cons]
      by_cases hc : c p = true
      · rw [if_pos hc, getA]
        by_cases hq : p = q
        · subst hq
          rw [if_pos rfl, if_pos ⟨List.mem_cons_self _ _, hc⟩]
        · rw [if_neg hq, ih (List.nodup_cons.mp hn).2 q]
          by_cases hmem : q ∈ L' ∧ c q = true
          · rw [if_pos hmem, if_pos ⟨List.mem_cons_of_mem _ hmem.1, hmem.2⟩]
          · rw [if_neg hmem, if_neg (by
              rintro ⟨hq', hcq⟩
              rcases List.mem_cons.mp hq' with rfl | hq''
              · exact hq rfl
              · exact hmem ⟨hq'', hcq⟩)]
      · rw [if_neg hc, ih (List.nodup_cons.mp hn).2 q]
        by_cases hq : p = q
        · subst hq
          rw [if_neg (fun hmem => (List.nodup_cons.mp hn).1 hmem.1),
            if_neg (fun hmem => (hc (hmem.2)).elim)]
        · by_cases hmem : q ∈ L' ∧ c q = true
          · rw [if_pos hmem, if_pos ⟨List.mem_cons_of_mem _ hmem.1, hmem.2⟩]
          · rw [if_neg hmem, if_neg (by
              rintro ⟨hq', hcq⟩
              rcases List.mem_cons.mp hq' with rfl | hq''
              · exact hq rfl
              · exact hmem ⟨hq'', hcq⟩)]

theorem emittedOf_keys (t : StaticTheme) :
    (emittedOf t).map Prod.fst =
      staticThemeProps.filter (fun p => emitCond t p) := by
  rw [emittedOf]
  generalize staticThemeProps = L
  induction L with
  | nil => rfl
  | cons p ps ih =>
      rw [List.filterMap_cons, List.filter_cons]
      by_cases hc : emitCond t p = true
      · rw [if_pos hc, if_pos hc, List.map_cons, ih]
      · rw [if_neg hc, if_neg hc, ih]

theorem getA_reparse (t : StaticTheme) (q : String) :
    getA (reparse t).props q =
      if q ∈ staticThemeProps ∧ emitCond t q = true then
        some (if q = "noCommon" then .boolV true else .listV (emitBody t q))
      else none := by
  have hkeys : ((emittedOf t).map Prod.fst).Nodup := by
    rw [emittedOf_keys]
    exact List.Nodup.filter _ staticThemeProps_nodup
  rw [reparse]
  by_cases hm : q ∈ staticThemeProps ∧ emitCond t q = true
  · have hga : getA (emittedOf t) q = some (emitBody t q) := by
      rw [emittedOf, getA_filterMap_cond (fun p => emitCond t p)
        (fun p => emitBody t p) staticThemeProps staticThemeProps_nodup q,
        if_pos hm]
    rw [getA_foldl_setA
      (fun k b => if k = "noCommon" then PropVal.boolV true else PropVal.listV b)
      (emittedOf t) hkeys [] q _ hga, if_pos hm]
  · have hnot : q ∉ (emittedOf t).map Prod.fst := by
      rw [emittedOf_keys, List.mem_filter]
      intro hmem
      exact hm ⟨hmem.1, hmem.2⟩
    rw [getA_foldl_setA_not_mem
      (fun k b => if k = "noCommon" then PropVal.boolV true else PropVal.listV b)
      (emittedOf t) [] q (fun e he hq => hnot (hq ▸ List.mem_map_of_mem _ he)),
      getA, if_neg hm]

theorem selList_eq_nil_of_not_array (t : StaticTheme) (q : String)
    (h : propIsArray t q = false) : t.selList q = [] := by
  rw [StaticTheme.selList]
  rw [propIsArray] at h
  cases hg : getA t.props q with
  | none => rfl
  | some v =>
      cases v with
      | boolV b => rfl
      | listV ls =>
          rw [hg] at h
          cases h

theorem reparse_same (t : StaticTheme) (hwf : wellFormedRecord t) :
    sameRecord t (reparse t) := by
  have hec : emitCond t "noCommon" = t.noCommonB := by
    rw [emitCond, propIsArray_noCommon_false t hwf]
    simp
  refine ⟨rfl, ?_, ?_⟩
  · rw [show (reparse t).noCommonB =
        (match getA (reparse t).props "noCommon" with
          | some (.boolV b) => b
          | some (.listV _) => true
          | none => false) from rfl,
      getA_reparse t "noCommon"]
    by_cases hb : t.noCommonB = true
    · rw [if_pos ⟨by decide, hec.trans hb⟩, hb]
      rw [if_pos rfl]
    · rw [if_neg (fun hmem => hb (hec ▸ hmem.2))]
      exact (Bool.not_eq_true t.noCommonB ▸ hb : t.noCommonB = false)
  · intro q hq
    rw [show (reparse t).selList q =
        (match getA (reparse t).props q with
          | some (.listV ls) => ls
          | _ => []) from rfl,
      getA_reparse t q]
    by_cases hm : q ∈ staticThemeProps ∧ emitCond t q = true
    · rw [if_pos hm, if_neg hq]
      have hcond := hm.2
      rw [emitCond, Bool.or_eq_true] at hcond
      rcases hcond with hcond | hcond
      · rw [Bool.and_eq_true] at hcond
        exact absurd (of_decide_eq_true hcond.1) hq
      · rw [Bool.and_eq_true] at hcond
        rw [emitBody, if_pos hcond.1]
    · rw [if_neg hm]
      by_cases hp : q ∈ staticThemeProps
      · have hcond : emitCond t q = false := by
          cases hce : emitCond t q with
          | false => rfl
          | true => exact absurd ⟨hp, hce⟩ hm
        rw [emitCond, Bool.or_eq_false_iff] at hcond
        have h2 := hcond.2
        rw [Bool.and_eq_false_iff] at h2
        rcases h2 with h2 | h2
        · exact selList_eq_nil_of_not_array t q h2
        · have := Nat.eq_zero_of_not_pos (fun hlt => by
            rw [decide_eq_true hlt] at h2
            cases h2)
          exact List.eq_nil_of_length_eq_zero this
      · cases hg : getA t.props q with
        | none =>
            rw [StaticTheme.selList, hg]
        | some v =>
            have := (hwf.2.2 (q, v) (getA_mem _ _ _ hg)).1
            exact absurd this hp

theorem forall₂_reparse (l : List StaticTheme)
    (h : ∀ t ∈ l, wellFormedRecord t) :
    List.Forall₂ sameRecord l (l.map reparse) := by
  induction l with
  | nil => exact List.Forall₂.nil
  | cons t rest ih =>
      exact List.Forall₂.cons (reparse_same t (h t (List.mem_cons_self _ _)))
        (ih (fun u hu => h u (List.mem_cons_of_mem _ hu)))

/-- C2 counterexample: the claim's hypotheses do not constrain the url
lines, and a record whose only url pattern is `"A"` (a line matching the
section-header pattern) re-parses to a record with an empty url list and
a stray `a` property, so `Parse (Format catalogue)` does not return the
same records. -/
theorem roundtrip_counterexample :
    parseUrlSelectorConfig (formatUrlSelectorConfig
      [{ url := ["*"] }, { url := ["A"] }]) =
      .ok [{ url := ["*"] }, { url := [], props := [("a", .listV [])] }] ∧
    ¬ List.Forall₂ sameRecord
      [({ url := ["*"] } : StaticTheme), { url := ["A"] }]
      [({ url := ["*"] } : StaticTheme),
        { url := [], props := [("a", .listV [])] }] := by
  constructor
  · rfl
  · intro h
    have := (List.forall₂_cons.mp (List.forall₂_cons.mp h).2).1.1
    exact absurd this (by decide)

/-- C2 amended: `Parse (Format catalogue)` returns records with the same
url lists, `noCommon` flags and role-to-selector-list assignments
(absent and empty identified) for every catalogue that is in canonical
sort order with the common record first, whose records use only
properties of the fixed declared set (`noCommon` boolean, the others
selector lists), and all of whose url and selector lines are non-blank,
trim-invariant, free of newlines, carriage returns and `==` runs, and do
not match the section-header pattern. -/
theorem parse_format_roundtrip (C : List StaticTheme) (hne : C ≠ [])
    (hwf : ∀ t ∈ C, wellFormedRecord t)
    (hsorted : C.Pairwise
      (fun a b => compare (sortKey a) (sortKey b) ≠ Ordering.gt))
    (hcommon : (C.headD { url := [] }).url.headD "" = "*") :
    ∃ D, parseUrlSelectorConfig (formatUrlSelectorConfig C) = .ok D ∧
      List.Forall₂ sameRecord C D := by
  have hfmt : formatUrlSelectorConfig C = joinLines (formatLines C ++ [""]) := by
    rw [formatUrlSelectorConfig, sortThemes_sorted C hsorted]
  have hnocr : ((formatUrlSelectorConfig C).data.filter (fun c => c != '\r')) =
      interData (formatLines C ++ [""]) := by
    rw [hfmt,
      show (joinLines (formatLines C ++ [""])).data =
        interData (formatLines C ++ [""]) from rfl]
    apply List.filter_eq_self.mpr
    intro c hc
    rcases mem_interData c _ hc with rfl | ⟨s, hs, hcs⟩
    · decide
    · have hncr := formatLines_no_cr C hwf s hs
      simp only [bne_iff_ne, ne_eq, decide_eq_true_eq]
      intro hcr
      exact hncr (hcr ▸ hcs)
  have hsplit : splitBlocks ((formatUrlSelectorConfig C).data.filter
      (fun c => c != '\r')) = expBlocks [] C := by
    rw [hnocr, splitBlocks, splitFinish_foldl_format C hne hwf [] []]
    rfl
  have hrec : parseRecords (formatUrlSelectorConfig C) = .ok (C.map reparse) := by
    rw [parseRecords, hsplit]
    exact mapExcept_expBlocks C hne hwf [] [] (by simp) (fun M hM => by simp)
  obtain ⟨t0, rest, rfl⟩ : ∃ t0 rest, C = t0 :: rest := by
    cases C with
    | nil => cases hne rfl
    | cons a b => exact ⟨a, b, rfl⟩
  have hcheck : (getCommonTheme ((t0 :: rest).map reparse)).url.headD "" =
      "*" := by
    rw [List.map_cons, getCommonTheme, List.headD_cons,
      show (reparse t0).url = t0.url from rfl]
    rw [List.headD_cons] at hcommon
    exact hcommon
  refine ⟨(t0 :: rest).map reparse, ?_, forall₂_reparse _ hwf⟩
  simp only [parseUrlSelectorConfig, hrec]
  rw [if_pos hcheck]

/-- C2 amended, witness: a concrete two-record catalogue round-trips. -/
theorem parse_format_roundtrip_witness :
    ∃ D, parseUrlSelectorConfig (formatUrlSelectorConfig
        [{ url := ["*"] },
         { url := ["example.com"],
           props := [("neutralBg", .listV ["body"])] }]) = .ok D ∧
      List.Forall₂ sameRecord
        [({ url := ["*"] } : StaticTheme),
         { url := ["example.com"], props := [("neutralBg", .listV ["body"])] }]
        D :=
  parse_format_roundtrip
    [{ url := ["*"] },
     { url := ["example.com"], props := [("neutralBg", .listV ["body"])] }]
    (by decide) (by decide)
    (by
      constructor
      · intro b hb
        rw [List.mem_singleton.mp hb]
        decide
      · exact List.pairwise_singleton _ _)
    (by decide)

end StaticThemeGen

